import Mathlib

/-!
Verification of the trust-boundary layer of the val-land repository: the
signed anti-abuse challenge token service, the hybrid rate limiter (shared
backend plus local in-process fallback), the authenticated secret cipher, and
the client-side retry queue (`src/server/security.ts`, `src/lib/submission-queue.ts`).

Modelling conventions.

* Machine numbers (timestamps in milliseconds, counters, TTLs) are `Nat`.
  JavaScript subtractions that are non-negative at every call site are
  translated as truncated `Nat` subtraction; `Math.ceil(x / 1000)` on a
  non-negative integer `x` is `(x + 999) / 1000`.
* Platform cryptography (`node:crypto`) is not code of this repository.  The
  SHA-256 hex digest, the HMAC-SHA256 signature and the AES-256-GCM cipher
  and tag are modelled as injective executable encodings (the ideal-primitive
  reading: the repository logic depends only on the primitives being
  deterministic and collision-free, never on their internals).  Likewise
  `JSON.stringify`/`JSON.parse` composed with base64url is modelled as an
  executable serialize/parse pair over the payload record.
* Mutable state (the `Map` inside `createRateLimiter`, the shared Redis keys,
  browser `localStorage` holding the retry queue) is passed explicitly: each
  operation takes the state before the call and returns it after the call.
-/

set_option maxRecDepth 16000

namespace ValLand

/-! ## Hex encoding infrastructure

A fixed, executable, injective string encoding used to model the opaque byte
encodings of the platform (`digest('hex')`, `base64url`, serialized JSON).
Every character is encoded as six lowercase hex digits of its code point. -/

/-- The sixteen lowercase hex digit characters, in value order. -/
def hexDigits : List Char := ("0123456789abcdef" : String).data

/-- Hex digit for a value below 16. -/
def hexDigit (n : Nat) : Char := hexDigits.getD n '0'

/-- Value of a lowercase hex digit character: its position in `hexDigits`. -/
def hexVal (c : Char) : Option Nat :=
  if hexDigits.indexOf c < 16 then some (hexDigits.indexOf c) else none

/-- Six-hex-digit (big-endian) encoding of a code point (all code points are
below `16 ^ 6`). -/
def hexChar6 (n : Nat) : List Char :=
  [hexDigit (n / 1048576 % 16), hexDigit (n / 65536 % 16), hexDigit (n / 4096 % 16),
   hexDigit (n / 256 % 16), hexDigit (n / 16 % 16), hexDigit (n % 16)]

/-- Hex encoding of a character list: six hex digits per character. -/
def hexOfChars (l : List Char) : List Char := l.flatMap (fun c => hexChar6 c.toNat)

/-- Hex encoding of a string. -/
def hexOfString (s : String) : String := ⟨hexOfChars s.data⟩

/-- Inverse of `hexOfChars`: parse groups of six hex digits back into
characters; fails on anything that is not an exact image of `hexOfChars`. -/
def charsOfHex : List Char → Option (List Char)
  | [] => some []
  | c1 :: c2 :: c3 :: c4 :: c5 :: c6 :: rest =>
    match hexVal c1, hexVal c2, hexVal c3, hexVal c4, hexVal c5, hexVal c6 with
    | some d1, some d2, some d3, some d4, some d5, some d6 =>
      let n := d1 * 1048576 + d2 * 65536 + d3 * 4096 + d4 * 256 + d5 * 16 + d6
      if h : n.isValidChar then
        (charsOfHex rest).map (fun l => Char.ofNatAux n h :: l)
      else none
    | _, _, _, _, _, _ => none
  | _ => none

/-- Inverse of `hexOfString`. -/
def stringOfHex (s : String) : Option String := (charsOfHex s.data).map String.mk

/-! Round-trip and injectivity of the hex encoding. -/

theorem hexVal_hexDigit {d : Nat} (h : d < 16) : hexVal (hexDigit d) = some d := by
  interval_cases d <;> decide

theorem hexDigit_mem (n : Nat) : hexDigit n ∈ hexDigits := by
  unfold hexDigit
  by_cases h : n < hexDigits.length
  · exact List.getD_eq_getElem hexDigits '0' h ▸ hexDigits.getElem_mem h
  · rw [List.getD_eq_default hexDigits '0' (Nat.le_of_not_lt h)]
    decide

theorem char_toNat_lt (c : Char) : c.toNat < 1114112 := by
  rcases c.valid with h | ⟨_, h⟩
  · exact Nat.lt_trans h (by decide)
  · exact h

theorem char_toNat_isValid (c : Char) : Nat.isValidChar c.toNat := c.valid

theorem toNat_ofNatAux {n : Nat} (h : n.isValidChar) : (Char.ofNatAux n h).toNat = n := rfl

theorem ofNatAux_toNat (c : Char) (h : Nat.isValidChar c.toNat) :
    Char.ofNatAux c.toNat h = c := by
  apply Char.ext
  rfl

theorem charsOfHex_hexChar6_append (c : Char) (rest : List Char) :
    charsOfHex (hexChar6 c.toNat ++ rest) = (charsOfHex rest).map (fun l => c :: l) := by
  have hlt := char_toNat_lt c
  set n := c.toNat with hn
  have h1 : hexVal (hexDigit (n / 1048576 % 16)) = some (n / 1048576 % 16) :=
    hexVal_hexDigit (Nat.mod_lt _ (by decide))
  have h2 : hexVal (hexDigit (n / 65536 % 16)) = some (n / 65536 % 16) :=
    hexVal_hexDigit (Nat.mod_lt _ (by decide))
  have h3 : hexVal (hexDigit (n / 4096 % 16)) = some (n / 4096 % 16) :=
    hexVal_hexDigit (Nat.mod_lt _ (by decide))
  have h4 : hexVal (hexDigit (n / 256 % 16)) = some (n / 256 % 16) :=
    hexVal_hexDigit (Nat.mod_lt _ (by decide))
  have h5 : hexVal (hexDigit (n / 16 % 16)) = some (n / 16 % 16) :=
    hexVal_hexDigit (Nat.mod_lt _ (by decide))
  have h6 : hexVal (hexDigit (n % 16)) = some (n % 16) :=
    hexVal_hexDigit (Nat.mod_lt _ (by decide))
  have hsum : n / 1048576 % 16 * 1048576 + n / 65536 % 16 * 65536 + n / 4096 % 16 * 4096 +
      n / 256 % 16 * 256 + n / 16 % 16 * 16 + n % 16 = n := by omega
  show charsOfHex (hexDigit (n / 1048576 % 16) :: hexDigit (n / 65536 % 16) ::
      hexDigit (n / 4096 % 16) :: hexDigit (n / 256 % 16) :: hexDigit (n / 16 % 16) ::
      hexDigit (n % 16) :: rest) = _
  rw [charsOfHex, h1, h2, h3, h4, h5, h6]
  simp only
  rw [hsum]
  rw [dif_pos (hn ▸ char_toNat_isValid c)]
  have : Char.ofNatAux n (hn ▸ char_toNat_isValid c) = c := ofNatAux_toNat c _
  rw [this]

theorem charsOfHex_hexOfChars (l : List Char) : charsOfHex (hexOfChars l) = some l := by
  induction l with
  | nil => rfl
  | cons c rest ih =>
    show charsOfHex (hexChar6 c.toNat ++ hexOfChars rest) = _
    rw [charsOfHex_hexChar6_append, ih, Option.map_some']

theorem stringOfHex_hexOfString (s : String) : stringOfHex (hexOfString s) = some s := by
  unfold stringOfHex hexOfString
  rw [charsOfHex_hexOfChars]
  rfl

theorem hexOfChars_injective : Function.Injective hexOfChars := by
  intro a b h
  have ha := charsOfHex_hexOfChars a
  have hb := charsOfHex_hexOfChars b
  rw [h, hb] at ha
  exact (Option.some_injective _ ha).symm

theorem hexOfString_injective : Function.Injective hexOfString := by
  intro a b h
  have hdata : hexOfChars a.data = hexOfChars b.data := congrArg String.data h
  have hd := hexOfChars_injective hdata
  cases a; cases b
  exact congrArg String.mk hd

theorem hexChar6_mem_hexDigits {c : Char} {n : Nat} (h : c ∈ hexChar6 n) : c ∈ hexDigits := by
  simp only [hexChar6, List.mem_cons, List.not_mem_nil, or_false] at h
  rcases h with h | h | h | h | h | h
  all_goals (subst h; exact hexDigit_mem _)

theorem hexOfChars_mem_hexDigits {c : Char} {l : List Char} (h : c ∈ hexOfChars l) :
    c ∈ hexDigits := by
  unfold hexOfChars at h
  rcases List.mem_flatMap.mp h with ⟨x, _, hc⟩
  exact hexChar6_mem_hexDigits hc

/-- `hexVal c = some d` determines both a bound on `d` and that `c` is the
digit character for `d`. -/
theorem hexVal_eq_some {c : Char} {d : Nat} (h : hexVal c = some d) :
    d < 16 ∧ hexDigit d = c := by
  unfold hexVal at h
  split_ifs at h with hi
  injection h with h
  subst h
  refine ⟨hi, ?_⟩
  show hexDigits.getD (hexDigits.indexOf c) '0' = c
  rw [List.getD_eq_getElem _ _ (by rw [show hexDigits.length = 16 from rfl]; exact hi)]
  exact List.getElem_indexOf _

/-- Exactness of the parse direction: anything `charsOfHex` accepts is the
encoding of its result. -/
theorem hexOfChars_of_charsOfHex : ∀ {s l : List Char}, charsOfHex s = some l →
    hexOfChars l = s := by
  intro s
  induction s using charsOfHex.induct with
  | case1 =>
    intro l h
    simp only [charsOfHex] at h
    cases h
    rfl
  | case2 c1 c2 c3 c4 c5 c6 rest d1 d2 d3 d4 d5 d6 h6 h5 h4 h3 h2 h1 n hval =>
    rename_i ih
    intro l h
    have hn : n = d1 * 1048576 + d2 * 65536 + d3 * 4096 + d4 * 256 + d5 * 16 + d6 := rfl
    simp only [charsOfHex, h1, h2, h3, h4, h5, h6] at h
    rw [dif_pos (hn ▸ hval)] at h
    rcases Option.map_eq_some'.mp h with ⟨l', hrest, hl⟩
    subst hl
    show hexChar6 (Char.ofNatAux _ hval).toNat ++ hexOfChars l' = _
    rw [ih hrest]
    obtain ⟨hb1, hd1⟩ := hexVal_eq_some h1
    obtain ⟨hb2, hd2⟩ := hexVal_eq_some h2
    obtain ⟨hb3, hd3⟩ := hexVal_eq_some h3
    obtain ⟨hb4, hd4⟩ := hexVal_eq_some h4
    obtain ⟨hb5, hd5⟩ := hexVal_eq_some h5
    obtain ⟨hb6, hd6⟩ := hexVal_eq_some h6
    have htn : (Char.ofNatAux _ hval).toNat =
        d1 * 1048576 + d2 * 65536 + d3 * 4096 + d4 * 256 + d5 * 16 + d6 := toNat_ofNatAux hval
    unfold hexChar6
    rw [htn]
    have e1 : (d1 * 1048576 + d2 * 65536 + d3 * 4096 + d4 * 256 + d5 * 16 + d6) / 1048576 % 16
        = d1 := by omega
    have e2 : (d1 * 1048576 + d2 * 65536 + d3 * 4096 + d4 * 256 + d5 * 16 + d6) / 65536 % 16
        = d2 := by omega
    have e3 : (d1 * 1048576 + d2 * 65536 + d3 * 4096 + d4 * 256 + d5 * 16 + d6) / 4096 % 16
        = d3 := by omega
    have e4 : (d1 * 1048576 + d2 * 65536 + d3 * 4096 + d4 * 256 + d5 * 16 + d6) / 256 % 16
        = d4 := by omega
    have e5 : (d1 * 1048576 + d2 * 65536 + d3 * 4096 + d4 * 256 + d5 * 16 + d6) / 16 % 16
        = d5 := by omega
    have e6 : (d1 * 1048576 + d2 * 65536 + d3 * 4096 + d4 * 256 + d5 * 16 + d6) % 16
        = d6 := by omega
    rw [e1, e2, e3, e4, e5, e6, hd1, hd2, hd3, hd4, hd5, hd6]
    rfl
  | case3 c1 c2 c3 c4 c5 c6 rest d1 d2 d3 d4 d5 d6 h6 h5 h4 h3 h2 h1 n =>
    rename_i hnval
    intro l h
    exfalso
    have hn : n = d1 * 1048576 + d2 * 65536 + d3 * 4096 + d4 * 256 + d5 * 16 + d6 := rfl
    simp only [charsOfHex, h1, h2, h3, h4, h5, h6] at h
    rw [dif_neg (hn ▸ hnval)] at h
    cases h
  | case4 c1 c2 c3 c4 c5 c6 rest hfail =>
    intro l h
    exfalso
    simp only [charsOfHex] at h
    cases h
  | case5 t hne hnl =>
    intro l h
    exfalso
    match t, hne, hnl with
    | [], hne, _ => exact hne rfl
    | [a], _, _ => cases h
    | [a, b], _, _ => cases h
    | [a, b, c], _, _ => cases h
    | [a, b, c, d], _, _ => cases h
    | [a, b, c, d, e], _, _ => cases h
    | a :: b :: c :: d :: e :: f :: rest, _, hnl => exact hnl a b c d e f rest rfl


/-! ## Variable-length hex encoding of natural numbers

Models the decimal rendering of a JavaScript integer inside serialized JSON
(an injective, executable digit encoding with an executable parser). -/

/-- Big-endian hex digits of `n`; the first argument is recursion fuel. -/
def natHexAux : Nat → Nat → List Char
  | 0, _ => []
  | fuel + 1, n => if n < 16 then [hexDigit n] else natHexAux fuel (n / 16) ++ [hexDigit (n % 16)]

/-- Big-endian hex digit string of a natural number. -/
def natHex (n : Nat) : List Char := natHexAux (n + 1) n

/-- Parser for `natHex`: fold the digit values left to right. -/
def hexToNat (l : List Char) : Option Nat :=
  if l.isEmpty then none
  else l.foldl (fun acc c => acc.bind fun a => (hexVal c).map fun d => a * 16 + d) (some 0)

theorem natHexAux_fuel : ∀ n fuel fuel2, n < fuel → n < fuel2 →
    natHexAux fuel n = natHexAux fuel2 n := by
  intro n
  induction n using Nat.strong_induction_on with
  | _ n ih =>
    intro fuel fuel2 h1 h2
    match fuel, fuel2 with
    | f + 1, g + 1 =>
      rw [natHexAux, natHexAux]
      by_cases hn : n < 16
      · rw [if_pos hn, if_pos hn]
      · rw [if_neg hn, if_neg hn]
        have hd : n / 16 < n := Nat.div_lt_self (by omega) (by omega)
        rw [ih (n / 16) hd f g (by omega) (by omega)]

theorem natHex_eq_of_ge (n : Nat) (h : 16 ≤ n) :
    natHex n = natHex (n / 16) ++ [hexDigit (n % 16)] := by
  show natHexAux (n + 1) n = _
  rw [natHexAux, if_neg (by omega)]
  rw [natHexAux_fuel (n / 16) n (n / 16 + 1) (Nat.div_lt_self (by omega) (by omega))
    (Nat.lt_succ_self _)]
  rfl

theorem natHex_eq_of_lt (n : Nat) (h : n < 16) : natHex n = [hexDigit n] := by
  show natHexAux (n + 1) n = _
  rw [natHexAux, if_pos h]

theorem natHex_ne_nil (n : Nat) : natHex n ≠ [] := by
  by_cases h : n < 16
  · rw [natHex_eq_of_lt n h]; simp
  · rw [natHex_eq_of_ge n (by omega)]; simp

theorem natHex_mem_hexDigits {c : Char} {n : Nat} (h : c ∈ natHex n) : c ∈ hexDigits := by
  induction n using Nat.strong_induction_on with
  | _ n ih =>
    by_cases hn : n < 16
    · rw [natHex_eq_of_lt n hn] at h
      rcases List.mem_singleton.mp h with rfl
      exact hexDigit_mem _
    · rw [natHex_eq_of_ge n (by omega)] at h
      rcases List.mem_append.mp h with h | h
      · exact ih (n / 16) (Nat.div_lt_self (by omega) (by omega)) h
      · rcases List.mem_singleton.mp h with rfl
        exact hexDigit_mem _

theorem foldl_hex_natHex (n : Nat) : ∀ a : Nat,
    (natHex n).foldl (fun acc c => acc.bind fun a => (hexVal c).map fun d => a * 16 + d)
      (some a) = some (a * 16 ^ (natHex n).length + n) := by
  induction n using Nat.strong_induction_on with
  | _ n ih =>
    intro a
    by_cases hn : n < 16
    · rw [natHex_eq_of_lt n hn]
      simp [List.foldl, hexVal_hexDigit hn]
    · rw [natHex_eq_of_ge n (by omega), List.foldl_append]
      rw [ih (n / 16) (Nat.div_lt_self (by omega) (by omega)) a]
      have hv : hexVal (hexDigit (n % 16)) = some (n % 16) :=
        hexVal_hexDigit (Nat.mod_lt _ (by decide))
      simp only [List.foldl, Option.bind_some, hv, Option.map_some, List.length_append,
        List.length_singleton]
      have hpow : 16 ^ ((natHex (n / 16)).length + 1) = 16 ^ (natHex (n / 16)).length * 16 :=
        pow_succ 16 _
      rw [hpow]
      simp only [Option.some_bind, Option.map_some']
      congr 1
      have hq : ∀ q : Nat, (q + n / 16) * 16 + n % 16 = q * 16 + n := by intro q; omega
      rw [hq]
      ring

theorem hexToNat_natHex (n : Nat) : hexToNat (natHex n) = some n := by
  unfold hexToNat
  rw [if_neg (by simp [natHex_ne_nil n])]
  have := foldl_hex_natHex n 0
  rw [this]
  simp

theorem natHex_injective : Function.Injective natHex := by
  intro a b h
  have ha := hexToNat_natHex a
  have hb := hexToNat_natHex b
  rw [h, hb] at ha
  exact (Option.some_injective _ ha).symm

/-! ## String helpers

Models of the JavaScript string primitives the trust-boundary code uses:
`split(sep)` with a one-character separator, `trim()`, and `slice(0, n)`. -/

/-- JS `String.prototype.split` with a one-character separator, on character
lists: `splitOnChar c l` returns the (possibly empty) chunks between
occurrences of `c`.  As in JS, the empty string splits to `[""]`. -/
def splitOnChar (sep : Char) : List Char → List (List Char)
  | [] => [[]]
  | c :: rest =>
    match splitOnChar sep rest with
    | [] => [[]]
    | h :: t => if c = sep then [] :: h :: t else (c :: h) :: t

/-- `split` on strings. -/
def splitStr (sep : Char) (s : String) : List String :=
  (splitOnChar sep s.data).map String.mk

theorem splitOnChar_ne_nil (sep : Char) (l : List Char) : splitOnChar sep l ≠ [] := by
  cases l with
  | nil => simp [splitOnChar]
  | cons c rest =>
    rw [splitOnChar]
    cases h : splitOnChar sep rest with
    | nil => simp
    | cons h t => by_cases hc : c = sep <;> simp [hc]

theorem splitOnChar_sep_free (sep : Char) (l : List Char) (h : sep ∉ l) :
    splitOnChar sep l = [l] := by
  induction l with
  | nil => rfl
  | cons c rest ih =>
    have hc : c ≠ sep := fun hc => h (hc ▸ List.mem_cons_self c rest)
    have hrest : sep ∉ rest := fun hr => h (List.mem_cons_of_mem c hr)
    rw [splitOnChar, ih hrest]
    simp [hc]

theorem splitOnChar_append_sep (sep : Char) (a b : List Char) (h : sep ∉ a) :
    splitOnChar sep (a ++ sep :: b) = a :: splitOnChar sep b := by
  induction a with
  | nil =>
    show splitOnChar sep (sep :: b) = [] :: splitOnChar sep b
    rw [splitOnChar]
    cases hb : splitOnChar sep b with
    | nil => exact absurd hb (splitOnChar_ne_nil sep b)
    | cons x t => simp
  | cons c a ih =>
    have hc : c ≠ sep := fun hc2 => h (hc2 ▸ List.mem_cons_self c a)
    have ha : sep ∉ a := fun hr => h (List.mem_cons_of_mem c hr)
    show splitOnChar sep (c :: (a ++ sep :: b)) = (c :: a) :: splitOnChar sep b
    rw [splitOnChar, ih ha]
    cases hb : splitOnChar sep b with
    | nil => exact absurd hb (splitOnChar_ne_nil sep b)
    | cons x t => simp [hc]

/-- Whitespace characters recognised by the `trim` model. -/
def isWsChar (c : Char) : Bool :=
  c = ' ' || c.toNat = 9 || c.toNat = 10 || c.toNat = 13 || c.toNat = 12 || c.toNat = 11

/-- JS `String.prototype.trim`: drop leading and trailing whitespace. -/
def strTrim (s : String) : String :=
  ⟨((s.data.dropWhile isWsChar).reverse.dropWhile isWsChar).reverse⟩

/-- JS `String.prototype.slice(0, n)`. -/
def takeChars (n : Nat) (s : String) : String := ⟨s.data.take n⟩

/-! ## TokenAuthenticator (security.ts lines 276-292, 378-381)

`crypto.createHash('sha256').digest('hex')` is modelled as the injective
hex-valued digest `hexOfString`; `crypto.createHmac('sha256', secret)` as an
injective keyed encoding.  `timingSafeEqualHex` compares a length check
followed by `crypto.timingSafeEqual` over the hex-decoded buffers; on the
equal-length hex digest strings it receives, byte equality of the decoded
buffers coincides with string equality, and constant-time execution is a
timing property outside this functional model. -/

/-- Model of `hashToken`: SHA-256 hex digest of a string (ideal digest). -/
def hashToken (token : String) : String := hexOfString token

/-- Model of `signChallengePayload`: base64url HMAC-SHA256 of the payload
segment under the secret (ideal MAC: an injective function of the pair). -/
def signChallengePayload (payloadRaw : String) (secret : String) : String :=
  hexOfString (hexOfString secret ++ "|" ++ hexOfString payloadRaw)

/-- Model of `timingSafeEqualHex` (length check then constant-time equality
of the hex-decoded buffers). -/
def timingSafeEqualHex (a b : String) : Bool :=
  a.length == b.length && a == b

theorem timingSafeEqualHex_iff (a b : String) : timingSafeEqualHex a b = true ↔ a = b := by
  unfold timingSafeEqualHex
  constructor
  · intro h
    exact eq_of_beq (Bool.and_elim_right h)
  · intro h
    subst h
    simp

theorem hashToken_injective : Function.Injective hashToken := hexOfString_injective

/-! ## ChallengeTokenService (security.ts lines 284-338)

The request context is modelled by the already-derived client address
(`getClientIp`, lines 176-191, extracts it from trusted headers or the
socket; no claim concerns that extraction) together with the raw
`user-agent` header (absent = `none`). -/

/-- The identity a request carries: derived client IP and user-agent. -/
structure Req where
  clientIp : String
  userAgent : Option String
  deriving DecidableEq

/-- Model of `getClientIp` (the derived address of the caller). -/
def getClientIp (req : Req) : String := req.clientIp

/-- Model of `hashUserAgent` (lines 284-288): hash of the first 512
characters of the user-agent header, or of the empty string if absent. -/
def hashUserAgent (header : Option String) : String :=
  hashToken (takeChars 512 (header.getD ""))

/-- The signed challenge payload (lines 294-298): `{ip, ua, exp}`. -/
structure SignedChallengePayload where
  ip : String
  ua : String
  exp : Nat
  deriving DecidableEq

/-- Model of `Buffer.from(JSON.stringify(payload), 'utf8').toString('base64url')`:
an injective executable serialization of the payload record. -/
def encodePayload (p : SignedChallengePayload) : String :=
  hexOfString p.ip ++ "|" ++ hexOfString p.ua ++ "|" ++ ⟨natHex p.exp⟩

/-- Parse direction of `encodePayload` (models base64url-decode plus
`JSON.parse` plus the field type checks of lines 324-333). -/
def decodePayload (s : String) : Option SignedChallengePayload :=
  match splitOnChar '|' s.data with
  | [a, b, c] =>
    match charsOfHex a, charsOfHex b, hexToNat c with
    | some ip, some ua, some exp => some ⟨⟨ip⟩, ⟨ua⟩, exp⟩
    | _, _, _ => none
  | _ => none

/-- The payload built at issuance (lines 304-308). -/
def challengePayload (req : Req) (now ttlSeconds : Nat) : SignedChallengePayload :=
  { ip := getClientIp req
    ua := hashUserAgent req.userAgent
    exp := now + ttlSeconds * 1000 }

/-- Model of `createSignedChallenge` (lines 300-313).  The configured secret
(`ANTI_ABUSE_CHALLENGE_TOKEN`) is a parameter; an absent variable is the
empty string, and a secret that trims to empty disables issuance. -/
def createSignedChallenge (req : Req) (secret : String) (now : Nat)
    (ttlSeconds : Nat := 300) : Option String :=
  if strTrim secret = "" then none
  else
    let payloadRaw := encodePayload (challengePayload req now ttlSeconds)
    let signature := signChallengePayload payloadRaw (strTrim secret)
    some ("v1." ++ payloadRaw ++ "." ++ signature)

/-- Model of `verifySignedChallenge` (lines 315-338). -/
def verifySignedChallenge (req : Req) (provided : String) (secret : String)
    (now : Nat) : Bool :=
  match splitStr '.' provided with
  | [v, payloadRaw, providedSig] =>
    if v ≠ "v1" then false
    else
      let expectedSig := signChallengePayload payloadRaw secret
      if ¬ (timingSafeEqualHex (hashToken providedSig) (hashToken expectedSig) = true) then false
      else
        match decodePayload payloadRaw with
        | none => false
        | some payload =>
          if now > payload.exp then false
          else if payload.ip ≠ getClientIp req then false
          else if payload.ua ≠ hashUserAgent req.userAgent then false
          else true
  | _ => false

/-- Payload round trip: the serializer and parser are exact inverses. -/
theorem decodePayload_encodePayload (p : SignedChallengePayload) :
    decodePayload (encodePayload p) = some p := by
  unfold decodePayload encodePayload
  have hdata : (hexOfString p.ip ++ "|" ++ hexOfString p.ua ++ "|" ++
      (⟨natHex p.exp⟩ : String)).data
      = hexOfChars p.ip.data ++ '|' :: (hexOfChars p.ua.data ++ '|' :: natHex p.exp) := by
    simp [hexOfString, String.data_append]
  rw [hdata]
  have hfree1 : '|' ∉ hexOfChars p.ip.data := fun h => by
    have := hexOfChars_mem_hexDigits h
    revert this
    decide
  have hfree2 : '|' ∉ hexOfChars p.ua.data := fun h => by
    have := hexOfChars_mem_hexDigits h
    revert this
    decide
  have hfree3 : '|' ∉ natHex p.exp := fun h => by
    have := natHex_mem_hexDigits h
    revert this
    decide
  rw [splitOnChar_append_sep '|' _ _ hfree1, splitOnChar_append_sep '|' _ _ hfree2,
    splitOnChar_sep_free '|' _ hfree3]
  simp only [charsOfHex_hexOfChars, hexToNat_natHex]

/-- A hex-coded string contains no separator characters. -/
theorem hexOfString_dot_free (s : String) : '.' ∉ (hexOfString s).data := fun h => by
  have := hexOfChars_mem_hexDigits h
  revert this
  decide

/-- The serialized payload contains no dot. -/
theorem encodePayload_dot_free (p : SignedChallengePayload) :
    '.' ∉ (encodePayload p).data := by
  intro h
  unfold encodePayload at h
  have hdata : (hexOfString p.ip ++ "|" ++ hexOfString p.ua ++ "|" ++
      (⟨natHex p.exp⟩ : String)).data
      = hexOfChars p.ip.data ++ '|' :: (hexOfChars p.ua.data ++ '|' :: natHex p.exp) := by
    simp [hexOfString, String.data_append]
  rw [hdata] at h
  rcases List.mem_append.mp h with h | h
  · exact absurd (hexOfChars_mem_hexDigits h) (by decide)
  · rcases List.mem_cons.mp h with h | h
    · cases h
    · rcases List.mem_append.mp h with h | h
      · exact absurd (hexOfChars_mem_hexDigits h) (by decide)
      · rcases List.mem_cons.mp h with h | h
        · cases h
        · exact absurd (natHex_mem_hexDigits h) (by decide)

/-- The signature segment contains no dot. -/
theorem signChallengePayload_dot_free (payloadRaw secret : String) :
    '.' ∉ (signChallengePayload payloadRaw secret).data :=
  hexOfString_dot_free _

/-- Splitting a well-formed `v1.payload.signature` token on dots. -/
theorem splitStr_token (pr sig : String) (hpr : '.' ∉ pr.data) (hsig : '.' ∉ sig.data) :
    splitStr '.' ("v1." ++ pr ++ "." ++ sig) = ["v1", pr, sig] := by
  unfold splitStr
  have hdata : ("v1." ++ pr ++ "." ++ sig).data
      = ['v', '1'] ++ '.' :: (pr.data ++ '.' :: sig.data) := by
    simp [String.data_append]
  rw [hdata]
  have hv : '.' ∉ ['v', '1'] := by decide
  rw [splitOnChar_append_sep '.' _ _ hv, splitOnChar_append_sep '.' _ _ hpr,
    splitOnChar_sep_free '.' _ hsig]
  rfl

/-! ## RateLimiter (security.ts lines 6-174)

The shared backend (Upstash Redis) holds, per namespace and IP, a counter key
and a last-admitted key; both are modelled as a record of the two values plus
their pending TTLs.  `Date.now()` is the `now` parameter (the two reads at
lines 79 and 149 are modelled as one instant).  A thrown backend call is
modelled at whole-call granularity: the `catch` at line 117 yields
`backendUnavailable`; no claim depends on writes that preceded the throwing
call.  The in-process fallback `Map` is a key-ordered association list (JS
`Map` preserves insertion order; `set` of an existing key keeps its slot). -/

/-- Per-route configuration (lines 6-12); `blockOnBackendFailure` is optional
in the source and absent means `false`. -/
structure RateLimitConfig where
  max : Nat
  windowMs : Nat
  minIntervalMs : Nat
  blockOnBackendFailure : Bool := false
  deriving DecidableEq

/-- Local fallback state per identity (lines 14-18). -/
structure RateEntry where
  count : Nat
  firstAt : Nat
  lastAt : Nat
  deriving DecidableEq

/-- Retention ceiling for local entries: two hours in milliseconds (line 20). -/
def RATE_STORE_TTL_MS : Nat := 2 * 60 * 60 * 1000

/-- Maximum number of local entries (line 21). -/
def RATE_STORE_MAX : Nat := 2000

/-- Floor for the shared last-admitted key TTL in seconds (line 22). -/
def SHARED_LAST_KEY_TTL_SECONDS : Nat := 2 * 60 * 60

/-- The two shared keys for one namespace and identity, with their TTLs
(seconds).  `none` as a value means the key is absent; `none` as a TTL means
no expiry is set. -/
structure KV where
  count : Option Nat := none
  countTtl : Option Nat := none
  last : Option Nat := none
  lastTtl : Option Nat := none
  deriving DecidableEq

/-- Outcome of `runSharedRateLimit`: the backend is unconfigured (`null`
return, line 78), the call threw (line 117-119), or a rate decision. -/
inductive SharedStep where
  | noRedis
  | failed
  | res (limited : Bool) (retryAfter : Nat)
  deriving DecidableEq

/-- Model of `runSharedRateLimit` (lines 76-120). -/
def runSharedRateLimit (hasRedis throws : Bool) (kv : KV) (now : Nat)
    (cfg : RateLimitConfig) : SharedStep × KV :=
  if !hasRedis then (.noRedis, kv)
  else if throws then (.failed, kv)
  else
    let windowSeconds := max 1 ((cfg.windowMs + 999) / 1000)
    let minIntervalSeconds := max SHARED_LAST_KEY_TTL_SECONDS ((cfg.minIntervalMs + 999) / 1000)
    let afterMin : Option (SharedStep × KV) :=
      match kv.last with
      | some l =>
        if now - l < cfg.minIntervalMs then
          some (.res true ((cfg.minIntervalMs - (now - l) + 999) / 1000), kv)
        else none
      | none => none
    match afterMin with
    | some r => r
    | none =>
      let c := kv.count.getD 0 + 1
      let kv1 : KV := { kv with
        count := some c
        countTtl := if c = 1 then some windowSeconds else kv.countTtl }
      let kv2 : KV := { kv1 with last := some now, lastTtl := some minIntervalSeconds }
      if c > cfg.max then
        let ttl : Int :=
          match kv2.count, kv2.countTtl with
          | none, _ => -2
          | some _, none => -1
          | some _, some t => (t : Int)
        (.res true (if 0 < ttl then ttl.toNat else windowSeconds), kv2)
      else (.res false 0, kv2)

/-- The local fallback store: association list in insertion order. -/
@[reducible] def RateStore := List (String × RateEntry)

/-- JS `Map.prototype.get`. -/
def getEntry : RateStore → String → Option RateEntry
  | [], _ => none
  | (k, v) :: rest, ip => if k = ip then some v else getEntry rest ip

/-- JS `Map.prototype.set`: replace in place, or append if absent. -/
def setEntry : RateStore → String → RateEntry → RateStore
  | [], ip, v => [(ip, v)]
  | (k, w) :: rest, ip, v =>
    if k = ip then (k, v) :: rest else (k, w) :: setEntry rest ip v

/-- JS `Map.prototype.delete`. -/
def deleteEntry (store : RateStore) (k : String) : RateStore :=
  List.filter (fun e => !(e.1 == k)) store

/-- Stable insertion into a list sorted by ascending `lastAt`. -/
def insertByLastAt (x : String × RateEntry) : RateStore → RateStore
  | [] => [x]
  | y :: ys => if x.2.lastAt ≤ y.2.lastAt then x :: y :: ys else y :: insertByLastAt x ys

/-- Model of `Array.from(store.entries()).sort((a, b) => a[1].lastAt - b[1].lastAt)`
(line 129): a stable sort by ascending `lastAt`. -/
def sortByLastAt : RateStore → RateStore
  | [] => []
  | x :: xs => insertByLastAt x (sortByLastAt xs)

/-- The first loop of `pruneRateStore` (lines 123-127): delete every entry
whose `lastAt` is older than the retention ceiling. -/
def keptEntries (store : RateStore) (now : Nat) : RateStore :=
  List.filter (fun e => !(RATE_STORE_TTL_MS < now - e.2.lastAt)) store

/-- Model of `pruneRateStore` (lines 122-134): drop entries older than the
retention ceiling, then if still above the cap delete the least-recently
active keys until at the cap. -/
def pruneRateStore (store : RateStore) (now : Nat) : RateStore :=
  let kept := keptEntries store now
  if kept.length ≤ RATE_STORE_MAX then kept
  else
    let sorted := sortByLastAt kept
    let overflow := kept.length - RATE_STORE_MAX
    List.foldl deleteEntry kept (List.map Prod.fst (sorted.take overflow))

/-- Admission result (`{limited, retryAfter}`). -/
structure RateResult where
  limited : Bool
  retryAfter : Nat
  deriving DecidableEq

/-- Lines 149-155 of the local path: prune, then reset the identity entry if
absent or if its window has expired. -/
def localPrepared (cfg : RateLimitConfig) (store : RateStore) (ip : String)
    (now : Nat) : RateStore :=
  let pruned := pruneRateStore store now
  match getEntry pruned ip with
  | none => setEntry pruned ip ⟨0, now, 0⟩
  | some e =>
    if now - e.firstAt > cfg.windowMs then setEntry pruned ip ⟨0, now, 0⟩ else pruned

/-- Model of the local fallback path of the limiter closure
(lines 149-172). -/
def localAdmit (cfg : RateLimitConfig) (store : RateStore) (ip : String)
    (now : Nat) : RateResult × RateStore :=
  let st := localPrepared cfg store ip now
  match getEntry st ip with
  | none => (⟨false, 0⟩, st)
  | some active =>
    if active.lastAt != 0 && now - active.lastAt < cfg.minIntervalMs then
      (⟨true, (cfg.minIntervalMs - (now - active.lastAt) + 999) / 1000⟩, st)
    else if cfg.max ≤ active.count then
      (⟨true, (cfg.windowMs - (now - active.firstAt) + 999) / 1000⟩, st)
    else (⟨false, 0⟩, setEntry st ip ⟨active.count + 1, active.firstAt, now⟩)

/-- Model of one call to the function returned by `createRateLimiter`
(lines 136-174).  `production` is `process.env.NODE_ENV === 'production'`. -/
def rateLimiterCall (cfg : RateLimitConfig) (production hasRedis throws : Bool)
    (kv : KV) (store : RateStore) (ip : String) (now : Nat) :
    RateResult × KV × RateStore :=
  match runSharedRateLimit hasRedis throws kv now cfg with
  | (.res l ra, kv2) => (⟨l, ra⟩, kv2, store)
  | (.failed, kv2) =>
    if cfg.blockOnBackendFailure && production then (⟨true, 60⟩, kv2, store)
    else
      let lr := localAdmit cfg store ip now
      (lr.1, kv2, lr.2)
  | (.noRedis, kv2) =>
    let lr := localAdmit cfg store ip now
    (lr.1, kv2, lr.2)

/-! ## SecretCipher (security.ts lines 340-376)

AES-256-GCM is modelled as an ideal AEAD: the ciphertext is an injective
encoding of the plaintext (secrecy is not a verified property here), and the
authentication tag is an injective encoding of key, nonce and ciphertext, so
that tag verification succeeds exactly on authentic triples.  `base64url` of
a byte segment is modelled by the injective `hexOfString`, with `stringOfHex`
as the (exact) decode direction. -/

/-- An injective encoding of a triple of strings (components are hex-coded,
so the separator cannot occur inside them). -/
def tripleEnc (a b c : String) : String :=
  hexOfString a ++ "|" ++ hexOfString b ++ "|" ++ hexOfString c

/-- Ideal AES-256-GCM ciphertext for key, nonce `iv` and plaintext. -/
def gcmCipher (key iv value : String) : String := hexOfString (tripleEnc key iv value)

/-- Ideal AES-256-GCM authentication tag over key, nonce and ciphertext. -/
def gcmTag (key iv ct : String) : String := hexOfString (tripleEnc key iv ct)

/-- Inverse of `gcmCipher` for the authentic key and nonce. -/
def gcmDecipher (key iv ct : String) : Option String :=
  match stringOfHex ct with
  | none => none
  | some s =>
    match splitOnChar '|' s.data with
    | [ka, iva, va] =>
      match charsOfHex ka, charsOfHex iva, charsOfHex va with
      | some k, some i, some v =>
        if (⟨k⟩ : String) = key ∧ (⟨i⟩ : String) = iv then some ⟨v⟩ else none
      | _, _, _ => none
    | _ => none

/-- Model of `getEncryptionKey` (lines 340-344): derive a 256-bit key by
hashing the trimmed key material, falling back to the environment variable
(`CREATOR_NOTIFY_ENCRYPTION_KEY`, modelled as `envKey`); empty material
disables the cipher. -/
def getEncryptionKey (keyMaterial : Option String) (envKey : Option String) :
    Option String :=
  let value := ((keyMaterial.map strTrim).orElse fun _ => envKey.map strTrim).getD ""
  if value = "" then none else some (hashToken value)

/-- Model of `encryptSecret` (lines 346-356); the fresh random nonce
(`crypto.randomBytes(12)`, line 350) is the `iv` parameter. -/
def encryptSecret (value : String) (keyMaterial : Option String)
    (envKey : Option String) (iv : String) : Option String :=
  match getEncryptionKey keyMaterial envKey with
  | none => none
  | some key =>
    let encrypted := gcmCipher key iv value
    let authTag := gcmTag key iv encrypted
    some ("enc:v1:" ++ hexOfString iv ++ ":" ++ hexOfString authTag ++ ":"
      ++ hexOfString encrypted)

/-- Model of `decryptSecret` (lines 358-376). -/
def decryptSecret (value : String) (keyMaterial : Option String)
    (envKey : Option String) : Option String :=
  match getEncryptionKey keyMaterial envKey with
  | none => none
  | some key =>
    match splitStr ':' value with
    | [e, v, ivSeg, tagSeg, ctSeg] =>
      if e ≠ "enc" ∨ v ≠ "v1" then none
      else
        match stringOfHex ivSeg, stringOfHex tagSeg, stringOfHex ctSeg with
        | some iv, some authTag, some encrypted =>
          if authTag = gcmTag key iv encrypted then gcmDecipher key iv encrypted
          else none
        | _, _, _ => none
    | _ => none

/-- Round trip of the ideal cipher pair. -/
theorem gcmDecipher_gcmCipher (key iv value : String) :
    gcmDecipher key iv (gcmCipher key iv value) = some value := by
  unfold gcmDecipher gcmCipher
  rw [stringOfHex_hexOfString]
  show (match splitOnChar '|' (tripleEnc key iv value).data with
    | [ka, iva, va] =>
      match charsOfHex ka, charsOfHex iva, charsOfHex va with
      | some k, some i, some v =>
        if (⟨k⟩ : String) = key ∧ (⟨i⟩ : String) = iv then some ⟨v⟩ else none
      | _, _, _ => none
    | _ => none) = some value
  have hdata : (tripleEnc key iv value).data
      = hexOfChars key.data ++ '|' :: (hexOfChars iv.data ++ '|' :: hexOfChars value.data) := by
    simp [tripleEnc, hexOfString, String.data_append]
  rw [hdata]
  have hfree1 : '|' ∉ hexOfChars key.data := fun h =>
    absurd (hexOfChars_mem_hexDigits h) (by decide)
  have hfree2 : '|' ∉ hexOfChars iv.data := fun h =>
    absurd (hexOfChars_mem_hexDigits h) (by decide)
  have hfree3 : '|' ∉ hexOfChars value.data := fun h =>
    absurd (hexOfChars_mem_hexDigits h) (by decide)
  rw [splitOnChar_append_sep '|' _ _ hfree1, splitOnChar_append_sep '|' _ _ hfree2,
    splitOnChar_sep_free '|' _ hfree3]
  simp [charsOfHex_hexOfChars]

/-- The ideal tag determines its inputs. -/
theorem gcmTag_inj {k1 i1 c1 k2 i2 c2 : String}
    (h : gcmTag k1 i1 c1 = gcmTag k2 i2 c2) : k1 = k2 ∧ i1 = i2 ∧ c1 = c2 := by
  have ht : tripleEnc k1 i1 c1 = tripleEnc k2 i2 c2 := hexOfString_injective h
  unfold tripleEnc at ht
  have hd : hexOfChars k1.data ++ '|' :: (hexOfChars i1.data ++ '|' :: hexOfChars c1.data)
      = hexOfChars k2.data ++ '|' :: (hexOfChars i2.data ++ '|' :: hexOfChars c2.data) := by
    have := congrArg String.data ht
    simpa [hexOfString, String.data_append] using this
  have hsplit := congrArg (splitOnChar '|') hd
  have hfree : ∀ s : String, '|' ∉ hexOfChars s.data := fun s h =>
    absurd (hexOfChars_mem_hexDigits h) (by decide)
  rw [splitOnChar_append_sep '|' _ _ (hfree k1), splitOnChar_append_sep '|' _ _ (hfree i1),
    splitOnChar_sep_free '|' _ (hfree c1),
    splitOnChar_append_sep '|' _ _ (hfree k2), splitOnChar_append_sep '|' _ _ (hfree i2),
    splitOnChar_sep_free '|' _ (hfree c2)] at hsplit
  injection hsplit with h1 hsplit
  injection hsplit with h2 hsplit
  injection hsplit with h3
  refine ⟨?_, ?_, ?_⟩
  · have := hexOfChars_injective h1
    cases k1; cases k2; exact congrArg String.mk this
  · have := hexOfChars_injective h2
    cases i1; cases i2; exact congrArg String.mk this
  · have := hexOfChars_injective h3
    cases c1; cases c2; exact congrArg String.mk this

/-! ## ClientRetryQueue (src/lib/submission-queue.ts)

The queue state is modelled directly as the parsed list of entries: the
`localStorage` JSON layer (`readSubmissionQueue` / `writeSubmissionQueue`)
is an identity serialization boundary for these claims, and the
`normalizeEntries` defaults guarantee every stored entry has numeric
`attempts` and a date `nextAttemptAt`, which the model types as `Nat`
millisecond timestamps.  A `submitFn` that throws is modelled by a function
value returning `{ok: false, error: 'Network error'}` (the `catch` at
lines 151-153). -/

/-- The submission payload is opaque to the queue. -/
@[reducible] def SubmissionPayload := String

/-- Result of one submit attempt (`SubmitResult`). -/
inductive SubmitResult where
  | ok
  | err (error : String)
  deriving DecidableEq

/-- One queued entry (lines 6-12). -/
structure QueueEntry where
  payload : SubmissionPayload
  error : String
  queuedAt : Nat
  attempts : Nat
  nextAttemptAt : Nat
  deriving DecidableEq

/-- Caller options (lines 16-22) with their defaulting behaviour. -/
structure QueueOptions where
  maxSize : Option Nat := none
  baseDelayMs : Option Nat := none
  maxDelayMs : Option Nat := none
  deriving DecidableEq

/-- Default queue capacity (line 24). -/
def DEFAULT_MAX_SIZE : Nat := 10

/-- Default base backoff delay (line 25). -/
def DEFAULT_BASE_DELAY_MS : Nat := 20000

/-- Default backoff ceiling (line 26). -/
def DEFAULT_MAX_DELAY_MS : Nat := 300000

/-- Model of `getBackoffDelayMs` (lines 36-41):
`min(base * 2 ^ max(0, attempts - 1), max)`. -/
def getBackoffDelayMs (attempts : Nat) (opts : QueueOptions) : Nat :=
  min ((opts.baseDelayMs.getD DEFAULT_BASE_DELAY_MS) * 2 ^ (attempts - 1))
    (opts.maxDelayMs.getD DEFAULT_MAX_DELAY_MS)

/-- Model of JS `Array.prototype.slice(-m)`: the last `m` elements — except
that `m = 0` yields `slice(-0) = slice(0)`, the whole array. -/
def sliceLast (l : List QueueEntry) (m : Nat) : List QueueEntry :=
  if m = 0 then l else l.drop (l.length - m)

/-- Model of `enqueueFailedSubmission` (lines 88-114). -/
def enqueueFailedSubmission (entries : List QueueEntry) (payload : SubmissionPayload)
    (errorMessage : String) (now : Nat) (opts : QueueOptions) : List QueueEntry :=
  let attempts := 1
  let nextAttemptAt := now + getBackoffDelayMs attempts opts
  let nextEntries := entries ++ [⟨payload, errorMessage, now, attempts, nextAttemptAt⟩]
  let maxSize := opts.maxSize.getD DEFAULT_MAX_SIZE
  if nextEntries.length > maxSize then sliceLast nextEntries maxSize else nextEntries

/-- Model of `getNextAttemptDelayMs` (lines 116-124). -/
def getNextAttemptDelayMs (entries : List QueueEntry) (now : Nat) : Option Nat :=
  match entries.map (fun e => e.nextAttemptAt) with
  | [] => none
  | t :: ts => some (ts.foldl min t - now)

/-- The entry loop of `drainSubmissionQueue` (lines 137-168), returning the
processed count and the retained entries in order. -/
def drainLoop (submitFn : SubmissionPayload → SubmitResult) (now : Nat)
    (opts : QueueOptions) : List QueueEntry → Nat × List QueueEntry
  | [] => (0, [])
  | e :: rest =>
    let r := drainLoop submitFn now opts rest
    if now < e.nextAttemptAt then (r.1, e :: r.2)
    else
      match submitFn e.payload with
      | .ok => (r.1 + 1, r.2)
      | .err msg =>
        let attempts := e.attempts + 1
        (r.1 + 1,
          { e with
            attempts := attempts
            error := msg
            nextAttemptAt := now + getBackoffDelayMs attempts opts } :: r.2)

/-- Model of `drainSubmissionQueue` (lines 126-173). -/
def drainSubmissionQueue (entries : List QueueEntry)
    (submitFn : SubmissionPayload → SubmitResult) (now : Nat) (opts : QueueOptions) :
    Nat × List QueueEntry × Option Nat :=
  if entries.isEmpty then (0, [], none)
  else
    let r := drainLoop submitFn now opts entries
    (r.1, r.2, getNextAttemptDelayMs r.2 now)

/-! ## Association-list and pruning lemmas for the local rate store -/

theorem getEntry_setEntry_self (s : RateStore) (k : String) (v : RateEntry) :
    getEntry (setEntry s k v) k = some v := by
  induction s with
  | nil => simp [setEntry, getEntry]
  | cons e rest ih =>
    rcases e with ⟨k2, w⟩
    by_cases h : k2 = k
    · subst h
      simp [setEntry, getEntry]
    · simp [setEntry, getEntry, h, ih]

theorem mem_setEntry {k : String} {v : RateEntry} {e : String × RateEntry} :
    ∀ {s : RateStore}, e ∈ setEntry s k v → e = (k, v) ∨ e ∈ s := by
  intro s
  induction s with
  | nil =>
    intro h
    simpa [setEntry] using h
  | cons x rest ih =>
    intro h
    rcases x with ⟨k2, w⟩
    by_cases hk : k2 = k
    · subst hk
      rw [setEntry, if_pos rfl] at h
      rcases List.mem_cons.mp h with h | h
      · exact Or.inl h
      · exact Or.inr (List.mem_cons_of_mem _ h)
    · rw [setEntry, if_neg hk] at h
      rcases List.mem_cons.mp h with h | h
      · exact Or.inr (h ▸ List.mem_cons_self _ _)
      · rcases ih h with h | h
        · exact Or.inl h
        · exact Or.inr (List.mem_cons_of_mem _ h)

theorem length_setEntry_of_mem {k : String} {w : RateEntry} (v : RateEntry) :
    ∀ {s : RateStore}, getEntry s k = some w → (setEntry s k v).length = s.length := by
  intro s
  induction s with
  | nil =>
    intro h
    cases h
  | cons x rest ih =>
    intro h
    rcases x with ⟨k2, w2⟩
    by_cases hk : k2 = k
    · subst hk
      simp [setEntry]
    · simp only [getEntry, if_neg hk] at h
      simp [setEntry, hk, ih h]

theorem length_setEntry_le (s : RateStore) (k : String) (v : RateEntry) :
    (setEntry s k v).length ≤ s.length + 1 := by
  induction s with
  | nil => simp [setEntry]
  | cons x rest ih =>
    rcases x with ⟨k2, w2⟩
    by_cases hk : k2 = k
    · subst hk
      simp [setEntry]
    · simp only [setEntry, if_neg hk, List.length_cons]
      omega

/-- Ordering used by the eviction sort. -/
def leLastAt (a b : String × RateEntry) : Prop := a.2.lastAt ≤ b.2.lastAt

theorem insertByLastAt_perm (x : String × RateEntry) (l : RateStore) :
    List.Perm (insertByLastAt x l) (x :: l) := by
  induction l with
  | nil => simp [insertByLastAt]
  | cons y ys ih =>
    rw [insertByLastAt]
    by_cases h : x.2.lastAt ≤ y.2.lastAt
    · rw [if_pos h]
    · rw [if_neg h]
      exact List.Perm.trans (List.Perm.cons y ih) (List.Perm.swap x y ys)

theorem sortByLastAt_perm (l : RateStore) : List.Perm (sortByLastAt l) l := by
  induction l with
  | nil => rfl
  | cons x xs ih =>
    rw [sortByLastAt]
    exact (insertByLastAt_perm x (sortByLastAt xs)).trans (List.Perm.cons x ih)

theorem insertByLastAt_pairwise (x : String × RateEntry) (l : RateStore)
    (h : List.Pairwise leLastAt l) : List.Pairwise leLastAt (insertByLastAt x l) := by
  induction l with
  | nil => simp [insertByLastAt, List.pairwise_singleton]
  | cons y ys ih =>
    rw [insertByLastAt]
    rcases List.pairwise_cons.mp h with ⟨hy, hys⟩
    by_cases hle : x.2.lastAt ≤ y.2.lastAt
    · rw [if_pos hle]
      refine List.pairwise_cons.mpr ⟨?_, h⟩
      intro b hb
      rcases List.mem_cons.mp hb with rfl | hb
      · exact hle
      · exact Nat.le_trans hle (hy b hb)
    · rw [if_neg hle]
      refine List.pairwise_cons.mpr ⟨?_, ih hys⟩
      intro b hb
      have hb2 := (insertByLastAt_perm x ys).mem_iff.mp hb
      rcases List.mem_cons.mp hb2 with rfl | hb2
      · exact Nat.le_of_not_le hle
      · exact hy b hb2

theorem sortByLastAt_pairwise (l : RateStore) : List.Pairwise leLastAt (sortByLastAt l) := by
  induction l with
  | nil => exact List.Pairwise.nil
  | cons x xs ih => exact insertByLastAt_pairwise x (sortByLastAt xs) ih

theorem foldl_deleteEntry_eq_filter (ks : List String) : ∀ l : RateStore,
    List.foldl deleteEntry l ks = List.filter (fun e => !(ks.contains e.1)) l := by
  induction ks with
  | nil =>
    intro l
    simp [List.filter_eq_self]
  | cons k ks ih =>
    intro l
    rw [List.foldl_cons, ih, deleteEntry, List.filter_filter]
    apply List.filter_congr
    intro e _
    cases hk : e.1 == k <;> cases hc : ks.contains e.1 <;>
      simp only [List.contains_cons, hk, hc, Bool.false_or, Bool.or_false, Bool.or_true,
        Bool.true_or, Bool.not_true, Bool.not_false, Bool.and_true, Bool.and_false,
        Bool.true_and, Bool.false_and]

theorem contains_iff_mem_str (ks : List String) (a : String) :
    ks.contains a = true ↔ a ∈ ks := by
  simp

theorem mem_keptEntries {store : RateStore} {now : Nat} {e : String × RateEntry}
    (h : e ∈ keptEntries store now) :
    e ∈ store ∧ now - e.2.lastAt ≤ RATE_STORE_TTL_MS := by
  rcases List.mem_filter.mp h with ⟨hmem, hp⟩
  refine ⟨hmem, ?_⟩
  simpa using hp

theorem keptEntries_nodup {store : RateStore} {now : Nat}
    (hnd : (List.map Prod.fst store).Nodup) :
    (List.map Prod.fst (keptEntries store now)).Nodup :=
  hnd.sublist ((List.filter_sublist store).map Prod.fst)

theorem pruneRateStore_subset_kept {store : RateStore} {now : Nat}
    {e : String × RateEntry} (h : e ∈ pruneRateStore store now) :
    e ∈ keptEntries store now := by
  simp only [pruneRateStore] at h
  split at h
  · exact h
  · rw [foldl_deleteEntry_eq_filter] at h
    exact (List.mem_filter.mp h).1

/-- In the overflow branch, pruning keeps exactly (a permutation of) the
entries above the eviction cut of the `lastAt`-sorted order. -/
theorem pruneRateStore_overflow_perm (store : RateStore) (now : Nat)
    (hnd : (List.map Prod.fst store).Nodup)
    (hlen : ¬ (keptEntries store now).length ≤ RATE_STORE_MAX) :
    (pruneRateStore store now).Perm
      ((sortByLastAt (keptEntries store now)).drop
        ((keptEntries store now).length - RATE_STORE_MAX)) := by
  set kept := keptEntries store now with hkept
  set ov := kept.length - RATE_STORE_MAX with hov
  set sorted := sortByLastAt kept with hsortdef
  have hperm : sorted.Perm kept := sortByLastAt_perm kept
  have hkeptnd : (kept.map Prod.fst).Nodup := keptEntries_nodup hnd
  have hsortnd : (sorted.map Prod.fst).Nodup := ((hperm.map Prod.fst).nodup_iff).mpr hkeptnd
  set p := fun e : String × RateEntry =>
    !((List.map Prod.fst (sorted.take ov)).contains e.1) with hp
  have hprune : pruneRateStore store now = List.filter p kept := by
    simp only [pruneRateStore, ← hkept, ← hsortdef, ← hov]
    rw [if_neg hlen, foldl_deleteEntry_eq_filter]
  have hsplit : sorted.take ov ++ sorted.drop ov = sorted := List.take_append_drop ov sorted
  have hdisj : (List.map Prod.fst (sorted.take ov)).Disjoint
      (List.map Prod.fst (sorted.drop ov)) := by
    have : ((List.map Prod.fst (sorted.take ov)) ++ (List.map Prod.fst (sorted.drop ov))).Nodup := by
      rw [← List.map_append, hsplit]
      exact hsortnd
    exact (List.nodup_append.mp this).2.2
  have hA : List.filter p (sorted.take ov) = [] := by
    apply List.filter_eq_nil_iff.mpr
    intro e he
    have hm : e.1 ∈ List.map Prod.fst (sorted.take ov) := List.mem_map_of_mem Prod.fst he
    have hc : (List.map Prod.fst (sorted.take ov)).contains e.1 = true :=
      (contains_iff_mem_str _ _).mpr hm
    simp only [hp, hc, Bool.not_true]
    exact Bool.false_ne_true
  have hB : List.filter p (sorted.drop ov) = sorted.drop ov := by
    apply List.filter_eq_self.mpr
    intro e he
    have hm : e.1 ∈ List.map Prod.fst (sorted.drop ov) := List.mem_map_of_mem Prod.fst he
    have hnm : e.1 ∉ List.map Prod.fst (sorted.take ov) := fun hin => hdisj hin hm
    have hc : (List.map Prod.fst (sorted.take ov)).contains e.1 = false := by
      cases hcc : (List.map Prod.fst (sorted.take ov)).contains e.1
      · rfl
      · exact absurd ((contains_iff_mem_str _ _).mp hcc) hnm
    simp only [hp, hc, Bool.not_false]
  have hfs : List.filter p sorted = sorted.drop ov := by
    have hstep : List.filter p (sorted.take ov ++ sorted.drop ov) = sorted.drop ov := by
      rw [List.filter_append, hA, hB, List.nil_append]
    rw [hsplit] at hstep
    exact hstep
  rw [hprune]
  exact ((hperm.symm.filter _).trans (hfs ▸ List.Perm.refl _))

/-- Pruning never leaves more than the cap. -/
theorem pruneRateStore_length (store : RateStore) (now : Nat)
    (hnd : (List.map Prod.fst store).Nodup) :
    (pruneRateStore store now).length ≤ RATE_STORE_MAX := by
  by_cases hlen : (keptEntries store now).length ≤ RATE_STORE_MAX
  · have : pruneRateStore store now = keptEntries store now := by
      simp only [pruneRateStore]
      rw [if_pos hlen]
    rw [this]
    exact hlen
  · have hperm := pruneRateStore_overflow_perm store now hnd hlen
    rw [hperm.length_eq, List.length_drop, (sortByLastAt_perm _).length_eq]
    omega

/-- Eviction order: an entry that survived the retention filter but was
evicted by the size cap is no more recently active than every retained
entry. -/
theorem pruneRateStore_evicts_oldest (store : RateStore) (now : Nat)
    (hnd : (List.map Prod.fst store).Nodup) {e e2 : String × RateEntry}
    (he : e ∈ keptEntries store now) (hnot : e ∉ pruneRateStore store now)
    (he2 : e2 ∈ pruneRateStore store now) :
    e.2.lastAt ≤ e2.2.lastAt := by
  by_cases hlen : (keptEntries store now).length ≤ RATE_STORE_MAX
  · exfalso
    apply hnot
    simp only [pruneRateStore]
    rw [if_pos hlen]
    exact he
  · set kept := keptEntries store now with hkept
    set ov := kept.length - RATE_STORE_MAX with hov
    set sorted := sortByLastAt kept with hsortdef
    have hperm := pruneRateStore_overflow_perm store now hnd hlen
    have he2d : e2 ∈ sorted.drop ov := hperm.mem_iff.mp he2
    have hed : e ∉ sorted.drop ov := fun hin => hnot (hperm.mem_iff.mpr hin)
    have hes : e ∈ sorted := ((sortByLastAt_perm kept).mem_iff).mpr he
    have het : e ∈ sorted.take ov := by
      rcases List.mem_append.mp ((List.take_append_drop ov sorted) ▸ hes) with h | h
      · exact h
      · exact absurd h hed
    have hpw : List.Pairwise leLastAt (sorted.take ov ++ sorted.drop ov) := by
      rw [List.take_append_drop]
      exact sortByLastAt_pairwise kept
    exact (List.pairwise_append.mp hpw).2.2 e het e2 he2d

/-! ## Characterization of challenge verification -/

/-- `verifySignedChallenge` accepts exactly the tokens with three dot-separated
segments, version `v1`, the correct HMAC over the payload segment, an
unexpired decodable payload, and identity fields matching the verifying
request. -/
theorem verifySignedChallenge_iff (req : Req) (now : Nat) (t secret : String) :
    verifySignedChallenge req t secret now = true ↔
      ∃ pr sig, splitStr '.' t = ["v1", pr, sig] ∧
        sig = signChallengePayload pr secret ∧
        ∃ p, decodePayload pr = some p ∧ now ≤ p.exp ∧
          p.ip = getClientIp req ∧ p.ua = hashUserAgent req.userAgent := by
  rcases hsp : splitStr '.' t with _ | ⟨v, _ | ⟨pr0, _ | ⟨sig0, _ | ⟨x, rest⟩⟩⟩⟩
  · constructor
    · intro h
      rw [verifySignedChallenge, hsp] at h
      cases h
    · rintro ⟨pr, sig, hsp2, _⟩
      cases hsp2
  · constructor
    · intro h
      rw [verifySignedChallenge, hsp] at h
      cases h
    · rintro ⟨pr, sig, hsp2, _⟩
      cases hsp2
  · constructor
    · intro h
      rw [verifySignedChallenge, hsp] at h
      cases h
    · rintro ⟨pr, sig, hsp2, _⟩
      injection hsp2 with _ hsp2
      injection hsp2 with _ hsp2
      cases hsp2
  · constructor
    · intro h
      rw [verifySignedChallenge, hsp] at h
      have h2 : (if v ≠ "v1" then false
          else if ¬ timingSafeEqualHex (hashToken sig0)
              (hashToken (signChallengePayload pr0 secret)) = true then false
          else match decodePayload pr0 with
            | none => false
            | some payload =>
              if now > payload.exp then false
              else if payload.ip ≠ getClientIp req then false
              else if payload.ua ≠ hashUserAgent req.userAgent then false
              else true) = true := h
      split_ifs at h2 with hv hts
      have hveq : v = "v1" := not_not.mp hv
      have hsig : sig0 = signChallengePayload pr0 secret :=
        hashToken_injective ((timingSafeEqualHex_iff _ _).mp hts)
      cases hdec : decodePayload pr0 with
      | none =>
        rw [hdec] at h2
        cases h2
      | some p =>
        rw [hdec] at h2
        have h3 : (if now > p.exp then false
            else if p.ip ≠ getClientIp req then false
            else if p.ua ≠ hashUserAgent req.userAgent then false else true) = true := h2
        split_ifs at h3 with hexp hip hua
        exact ⟨pr0, sig0, by rw [hveq], hsig, p, hdec,
          Nat.le_of_not_lt hexp, not_not.mp hip, not_not.mp hua⟩
    · rintro ⟨pr, sig, hsp2, hsig, p, hdec, hexp, hip, hua⟩
      injection hsp2 with hv hsp2
      injection hsp2 with hpr hsp2
      injection hsp2 with hs _
      subst hv
      subst hpr
      subst hs
      rw [verifySignedChallenge, hsp]
      show (if ("v1" : String) ≠ "v1" then false
          else if ¬ timingSafeEqualHex (hashToken sig0)
              (hashToken (signChallengePayload pr0 secret)) = true then false
          else match decodePayload pr0 with
            | none => false
            | some payload =>
              if now > payload.exp then false
              else if payload.ip ≠ getClientIp req then false
              else if payload.ua ≠ hashUserAgent req.userAgent then false
              else true) = true
      rw [if_neg (by simp)]
      rw [if_neg (by
        intro hc
        apply hc
        rw [← hsig]
        unfold timingSafeEqualHex
        simp)]
      rw [hdec]
      show (if now > p.exp then false
          else if p.ip ≠ getClientIp req then false
          else if p.ua ≠ hashUserAgent req.userAgent then false else true) = true
      rw [if_neg (by omega), if_neg (by simp [hip]), if_neg (by simp [hua])]
  · constructor
    · intro h
      rw [verifySignedChallenge, hsp] at h
      cases h
    · rintro ⟨pr, sig, hsp2, _⟩
      injection hsp2 with _ hsp2
      injection hsp2 with _ hsp2
      injection hsp2 with _ hsp2
      cases hsp2

/-! ## Claim C1 -/

/-- C1.  Challenge verification: for every token string and request context,
`verifySignedChallenge` returns `true` iff the token splits into exactly three
dot-separated parts with version `v1`, the signature segment equals the
HMAC-SHA256 of the payload segment under the configured secret, the decoded
payload satisfies `now ≤ exp`, and the payload identity fields match the
fingerprint recomputed from the verifying request; and any token sharing the
payload segment but with a different signature segment (in particular one with
a mutated signature byte) is rejected. -/
theorem claim_C1_challenge_verification (req : Req) (now : Nat) (t secret : String) :
    (verifySignedChallenge req t secret now = true ↔
      ∃ pr sig, splitStr '.' t = ["v1", pr, sig] ∧
        sig = signChallengePayload pr secret ∧
        ∃ p, decodePayload pr = some p ∧ now ≤ p.exp ∧
          p.ip = getClientIp req ∧ p.ua = hashUserAgent req.userAgent) ∧
    (∀ t2 pr sig sig2, splitStr '.' t = ["v1", pr, sig] →
      verifySignedChallenge req t secret now = true →
      splitStr '.' t2 = ["v1", pr, sig2] → sig2 ≠ sig →
      verifySignedChallenge req t2 secret now = false) := by
  refine ⟨verifySignedChallenge_iff req now t secret, ?_⟩
  intro t2 pr sig sig2 hsp hver hsp2 hne
  cases hv : verifySignedChallenge req t2 secret now
  · rfl
  · exfalso
    rcases (verifySignedChallenge_iff req now t2 secret).mp hv with
      ⟨pr2, sigx, hsp2b, hsigx, _⟩
    rw [hsp2] at hsp2b
    injection hsp2b with _ hsp2b
    injection hsp2b with hpr hsp2b
    injection hsp2b with hsx _
    rcases (verifySignedChallenge_iff req now t secret).mp hver with
      ⟨pra, siga, hspa, hsiga, _⟩
    rw [hsp] at hspa
    injection hspa with _ hspa
    injection hspa with hpra hspa
    injection hspa with hsa _
    subst hpr
    subst hpra
    subst hsx
    subst hsa
    exact hne (hsigx.trans hsiga.symm)

/-- Concrete request context for the C1 witness. -/
def reqA : Req := ⟨"a", none⟩

/-- Payload segment of the C1 witness token. -/
def prA : String := encodePayload (challengePayload reqA 100 0)

/-- Signature segment of the C1 witness token. -/
def sigA : String := signChallengePayload prA "sk"

theorem claim_C1_witness :
    verifySignedChallenge reqA ("v1." ++ prA ++ "." ++ sigA) "sk" 100 = true ∧
    verifySignedChallenge reqA ("v1." ++ prA ++ "." ++ ("x" ++ sigA)) "sk" 100 = false := by
  have hsplitA : splitStr '.' ("v1." ++ prA ++ "." ++ sigA) = ["v1", prA, sigA] :=
    splitStr_token prA sigA (encodePayload_dot_free _) (signChallengePayload_dot_free _ _)
  have hfreeB : '.' ∉ ("x" ++ sigA).data := by
    intro h
    rw [String.data_append] at h
    rcases List.mem_append.mp h with h | h
    · cases List.mem_singleton.mp h
    · exact signChallengePayload_dot_free _ _ h
  have hsplitB : splitStr '.' ("v1." ++ prA ++ "." ++ ("x" ++ sigA))
      = ["v1", prA, "x" ++ sigA] :=
    splitStr_token prA ("x" ++ sigA) (encodePayload_dot_free _) hfreeB
  have h1 : verifySignedChallenge reqA ("v1." ++ prA ++ "." ++ sigA) "sk" 100 = true :=
    (claim_C1_challenge_verification reqA 100 ("v1." ++ prA ++ "." ++ sigA) "sk").1.mpr
      ⟨prA, sigA, hsplitA, rfl, challengePayload reqA 100 0,
        decodePayload_encodePayload _, by decide, rfl, rfl⟩
  refine ⟨h1, (claim_C1_challenge_verification reqA 100
      ("v1." ++ prA ++ "." ++ sigA) "sk").2
    ("v1." ++ prA ++ "." ++ ("x" ++ sigA)) prA sigA ("x" ++ sigA) hsplitA h1 hsplitB ?_⟩
  intro h
  have hlen := congrArg String.length h
  rw [String.length_append] at hlen
  have hx : ("x" : String).length = 1 := rfl
  rw [hx] at hlen
  omega

/-! ## Claim C2 -/

/-- Concrete request context for the C2 counterexample. -/
def reqB : Req := ⟨"1.2.3.4", some "M"⟩

/-- C2 counterexample: the payload serialized by `createSignedChallenge`
carries the raw client IP `1.2.3.4` in its `ip` field, which is not the hash
of the client IP: the claim that the payload contains only one-way hashes of
the caller identity fails on the code. -/
theorem claim_C2_counterexample :
    createSignedChallenge reqB "sk" 0 300
      = some ("v1." ++ encodePayload (challengePayload reqB 0 300) ++ "."
          ++ signChallengePayload (encodePayload (challengePayload reqB 0 300)) "sk") ∧
    (challengePayload reqB 0 300).ip = "1.2.3.4" ∧
    (challengePayload reqB 0 300).ip ≠ hashToken "1.2.3.4" := by
  refine ⟨?_, rfl, by decide⟩
  rw [createSignedChallenge, if_neg (by decide)]
  rfl

/-- C2 (amended).  Challenge payload contents: every token issued by
`createSignedChallenge` serializes the payload
`{ip := getClientIp req, ua := hashUserAgent(user-agent), exp := now + ttl·1000}`:
the user-agent is stored as a one-way hash and the expiry is absolute, but the
client IP is stored raw (not hashed). -/
theorem claim_C2_payload_contents (req : Req) (secret : String) (now ttl : Nat)
    (t : String) (h : createSignedChallenge req secret now ttl = some t) :
    ∃ pr, splitStr '.' t = ["v1", pr, signChallengePayload pr (strTrim secret)] ∧
      decodePayload pr
        = some ⟨getClientIp req, hashUserAgent req.userAgent, now + ttl * 1000⟩ := by
  rw [createSignedChallenge] at h
  by_cases hs : strTrim secret = ""
  · rw [if_pos hs] at h
    cases h
  · rw [if_neg hs] at h
    injection h with ht
    refine ⟨encodePayload (challengePayload req now ttl), ?_, ?_⟩
    · rw [← ht]
      exact splitStr_token _ _ (encodePayload_dot_free _) (signChallengePayload_dot_free _ _)
    · exact decodePayload_encodePayload _

/-- The concrete token issued in the C2 witness scenario. -/
def tokB2 : String := "v1." ++ encodePayload (challengePayload reqB 0 300) ++ "."
  ++ signChallengePayload (encodePayload (challengePayload reqB 0 300)) (strTrim "sk")

theorem tokB2_issued : createSignedChallenge reqB "sk" 0 300 = some tokB2 := by
  rw [createSignedChallenge, if_neg (by decide)]
  rfl

theorem claim_C2_witness :
    ∃ pr, splitStr '.' tokB2 = ["v1", pr, signChallengePayload pr (strTrim "sk")] ∧
      decodePayload pr
        = some ⟨getClientIp reqB, hashUserAgent reqB.userAgent, 0 + 300 * 1000⟩ :=
  claim_C2_payload_contents reqB "sk" 0 300 tokB2 tokB2_issued

/-! ## Shared-path lemmas -/

/-- Minimum-interval rejection on the shared path: state untouched, retry
hint from the ceil formula. -/
theorem runSharedRateLimit_min (cfg : RateLimitConfig) (kv : KV) (now l : Nat)
    (hl : kv.last = some l) (hlt : now - l < cfg.minIntervalMs) :
    runSharedRateLimit true false kv now cfg
      = (.res true ((cfg.minIntervalMs - (now - l) + 999) / 1000), kv) := by
  unfold runSharedRateLimit
  rw [hl]
  simp [hlt]

/-- When the minimum-interval check passes, the shared path stores `now`
under the last-admitted key — whether or not the request ends up admitted. -/
theorem runSharedRateLimit_last (cfg : RateLimitConfig) (kv : KV) (now : Nat)
    (hmin : ∀ l, kv.last = some l → cfg.minIntervalMs ≤ now - l) :
    ((runSharedRateLimit true false kv now cfg).2).last = some now := by
  unfold runSharedRateLimit
  cases hl : kv.last with
  | none =>
    simp only [Bool.not_true, Bool.false_eq_true, if_false, if_pos, hl]
    split <;> rfl
  | some l =>
    have hge : cfg.minIntervalMs ≤ now - l := hmin l hl
    simp only [Bool.not_true, Bool.false_eq_true, if_false, hl]
    rw [if_neg (by omega)]
    split
    · rename_i r heq
      exact Option.noConfusion heq
    · split <;> rfl

/-! ## Claim C3 -/

/-- C3.  Fail closed on backend failure: when `blockOnBackendFailure` is set,
the deployment is production, and the shared backend call throws, the limiter
returns `limited = true` with the fixed 60-second retry hint, and neither the
shared state nor the local fallback store is touched — for every local store,
including one whose count for the identity is zero. -/
theorem claim_C3_fail_closed (cfg : RateLimitConfig) (kv : KV) (store : RateStore)
    (ip : String) (now : Nat) (hblock : cfg.blockOnBackendFailure = true) :
    rateLimiterCall cfg true true true kv store ip now = (⟨true, 60⟩, kv, store) := by
  unfold rateLimiterCall runSharedRateLimit
  simp [hblock]

theorem claim_C3_witness :
    rateLimiterCall ⟨5, 60000, 1000, true⟩ true true true {} [("ip", ⟨0, 0, 0⟩)] "ip" 42
      = (⟨true, 60⟩, {}, [("ip", ⟨0, 0, 0⟩)]) :=
  claim_C3_fail_closed ⟨5, 60000, 1000, true⟩ {} [("ip", ⟨0, 0, 0⟩)] "ip" 42 rfl

/-! ## Local-path lemmas -/

/-- Minimum-interval rejection on the local path: needs the entry to have
survived pruning, a nonzero `lastAt` (the source uses `0` as the
never-admitted sentinel), elapsed time below the interval, and an unexpired
window (otherwise line 153 resets the entry first). -/
theorem localAdmit_min (cfg : RateLimitConfig) (store : RateStore) (ip : String)
    (now : Nat) (e : RateEntry)
    (hget : getEntry (pruneRateStore store now) ip = some e)
    (hl0 : e.lastAt ≠ 0) (hlt : now - e.lastAt < cfg.minIntervalMs)
    (hw : now - e.firstAt ≤ cfg.windowMs) :
    localAdmit cfg store ip now
      = (⟨true, (cfg.minIntervalMs - (now - e.lastAt) + 999) / 1000⟩,
          pruneRateStore store now) := by
  have hprep : localPrepared cfg store ip now = pruneRateStore store now := by
    simp only [localPrepared]
    rw [hget]
    change (if now - e.firstAt > cfg.windowMs then _ else _) = _
    rw [if_neg (by omega)]
  simp only [localAdmit]
  rw [hprep, hget]
  change (if (e.lastAt != 0 && decide (now - e.lastAt < cfg.minIntervalMs)) = true
      then _ else _) = _
  rw [if_pos (by simp [hl0, hlt])]

/-- An entry of the prepared store for a key other than the current identity
comes from the pruned store. -/
theorem mem_localPrepared {cfg : RateLimitConfig} {store : RateStore} {ip : String}
    {now : Nat} {e : String × RateEntry} (h : e ∈ localPrepared cfg store ip now)
    (hne : e.1 ≠ ip) : e ∈ pruneRateStore store now := by
  simp only [localPrepared] at h
  split at h
  · rcases mem_setEntry h with h | h
    · exact absurd (congrArg Prod.fst h) hne
    · exact h
  · split at h
    · rcases mem_setEntry h with h | h
      · exact absurd (congrArg Prod.fst h) hne
      · exact h
    · exact h

theorem length_localPrepared (cfg : RateLimitConfig) (store : RateStore) (ip : String)
    (now : Nat) :
    (localPrepared cfg store ip now).length ≤ (pruneRateStore store now).length + 1 := by
  simp only [localPrepared]
  split
  · exact length_setEntry_le _ _ _
  · split
    · exact length_setEntry_le _ _ _
    · exact Nat.le_succ _

/-! ## Claim C4 -/

/-- Rate-limit configuration of the C4 counterexample scenario. -/
def cfgC4 : RateLimitConfig := ⟨10, 1000, 500, false⟩

/-- Local store of the C4 counterexample: the identity was admitted twice,
most recently 450 ms ago, but its window started 1050 ms ago. -/
def storeC4 : RateStore := [("ip", ⟨2, 1000000, 1000600⟩)]

/-- C4 counterexample: an attempt 450 ms after the last admission — strictly
inside the 500 ms minimum interval — is nevertheless admitted on the local
fallback path, because the window expiry at line 153 resets the entry (and
its `lastAt`) before the minimum-interval check runs. -/
theorem claim_C4_counterexample :
    getEntry storeC4 "ip" = some ⟨2, 1000000, 1000600⟩ ∧
    1001050 - 1000600 < cfgC4.minIntervalMs ∧
    (rateLimiterCall cfgC4 false false false {} storeC4 "ip" 1001050).1
      = ⟨false, 0⟩ := by
  refine ⟨rfl, by decide, ?_⟩
  decide

/-- C4 (amended).  Minimum-interval rejection.  Shared path: whenever the
stored last-admitted key is strictly less than `minIntervalMs` old, the
attempt is rejected with `retryAfter = ceil((minIntervalMs - elapsed)/1000)`
regardless of the counter value, and no state changes.  Local path: the same
holds provided the identity entry survived pruning, has a nonzero `lastAt`,
and its window has not expired (`now - firstAt ≤ windowMs`); the local path
stores only the pruning effect. -/
theorem claim_C4_min_interval (cfg : RateLimitConfig) (kv : KV) (store : RateStore)
    (production throws : Bool) (ip : String) (now l : Nat) (e : RateEntry) :
    (kv.last = some l → now - l < cfg.minIntervalMs →
      rateLimiterCall cfg production true false kv store ip now
        = (⟨true, (cfg.minIntervalMs - (now - l) + 999) / 1000⟩, kv, store)) ∧
    (getEntry (pruneRateStore store now) ip = some e → e.lastAt ≠ 0 →
      now - e.lastAt < cfg.minIntervalMs → now - e.firstAt ≤ cfg.windowMs →
      rateLimiterCall cfg production false throws kv store ip now
        = (⟨true, (cfg.minIntervalMs - (now - e.lastAt) + 999) / 1000⟩, kv,
            pruneRateStore store now)) := by
  constructor
  · intro hl hlt
    unfold rateLimiterCall
    rw [runSharedRateLimit_min cfg kv now l hl hlt]
  · intro hget hl0 hlt hw
    unfold rateLimiterCall
    have hnr : runSharedRateLimit false throws kv now cfg = (.noRedis, kv) := by
      unfold runSharedRateLimit
      simp
    rw [hnr, localAdmit_min cfg store ip now e hget hl0 hlt hw]

/-- Shared key state for the C4 witness. -/
def kvC4 : KV := {last := some 1000600}

/-- Local store for the C4 witness. -/
def storeC4w : RateStore := [("ip", ⟨2, 1000500, 1000600⟩)]

theorem claim_C4_witness :
    rateLimiterCall cfgC4 false true false kvC4 storeC4w "ip" 1000700
      = (⟨true, 1⟩, kvC4, storeC4w) ∧
    rateLimiterCall cfgC4 false false false kvC4 storeC4w "ip" 1000700
      = (⟨true, 1⟩, kvC4, pruneRateStore storeC4w 1000700) := by
  have h := claim_C4_min_interval cfgC4 kvC4 storeC4w false false "ip" 1000700 1000600
    ⟨2, 1000500, 1000600⟩
  exact ⟨(h.1 rfl (by decide)).trans (by decide),
    (h.2 (by decide) (by decide) (by decide) (by decide)).trans (by decide)⟩

/-! ## Claim C5 -/

/-- Shared key state for the C5 counterexample: counter already at 5, no
last-admitted key. -/
def kvC5 : KV := {count := some 5, countTtl := some 30}

/-- Configuration for the C5 counterexample. -/
def cfgC5 : RateLimitConfig := ⟨3, 10000, 1000, false⟩

/-- C5 counterexample: a request rejected for exceeding `max` within the
window (counter 6 > max 3) nevertheless rewrites the last-admitted key to the
current time — the source sets the key at line 106, before the `count > max`
check at line 108. -/
theorem claim_C5_counterexample :
    (runSharedRateLimit true false kvC5 42 cfgC5).1 = .res true 30 ∧
    kvC5.last = none ∧
    ((runSharedRateLimit true false kvC5 42 cfgC5).2).last = some 42 := by
  decide

/-- C5 (amended).  Shared-path last-admitted frame condition: an attempt
rejected by the minimum-interval check leaves the whole shared state (hence
the last-admitted key) unchanged; every attempt that passes the
minimum-interval check — admitted or rejected for exceeding `max` — stores
the current time under the last-admitted key. -/
theorem claim_C5_last_key_update (cfg : RateLimitConfig) (kv : KV) (now : Nat) :
    (∀ l, kv.last = some l → now - l < cfg.minIntervalMs →
      (runSharedRateLimit true false kv now cfg).2 = kv) ∧
    ((∀ l, kv.last = some l → cfg.minIntervalMs ≤ now - l) →
      ((runSharedRateLimit true false kv now cfg).2).last = some now) := by
  constructor
  · intro l hl hlt
    rw [runSharedRateLimit_min cfg kv now l hl hlt]
  · exact runSharedRateLimit_last cfg kv now

theorem claim_C5_witness :
    (runSharedRateLimit true false {last := some 100} 150 cfgC5).2
      = {last := some 100} ∧
    ((runSharedRateLimit true false {last := some 100} 2000 cfgC5).2).last
      = some 2000 := by
  refine ⟨(claim_C5_last_key_update cfgC5 {last := some 100} 150).1 100 rfl (by decide),
    (claim_C5_last_key_update cfgC5 {last := some 100} 2000).2 ?_⟩
  intro l hl
  injection hl with hl
  subst hl
  decide

/-! ## Claim C10 -/

/-- C10 (implicit).  Local rejection consumes no budget: whenever the local
fallback path returns `limited = true` — for the minimum-interval check or
for reaching `max` — the store is exactly the prepared store from the moment
the checks ran (so the identity entry keeps the `count` and `lastAt` it was
checked with); by contrast, the shared path stores a new last-admitted
timestamp on every attempt that passes its minimum-interval check. -/
theorem claim_C10_local_rejection_frame (cfg : RateLimitConfig) (store : RateStore)
    (ip : String) (now : Nat) (kv : KV) :
    ((localAdmit cfg store ip now).1.limited = true →
      (localAdmit cfg store ip now).2 = localPrepared cfg store ip now) ∧
    ((∀ l, kv.last = some l → cfg.minIntervalMs ≤ now - l) →
      ((runSharedRateLimit true false kv now cfg).2).last = some now) := by
  refine ⟨?_, runSharedRateLimit_last cfg kv now⟩
  intro hlim
  simp only [localAdmit] at hlim ⊢
  split at hlim
  · cases hlim
  · rename_i active hact
    split at hlim
    · rename_i hcond
      rw [if_pos hcond]
    · split at hlim
      · rename_i hcond1 hcond2
        rw [if_neg hcond1, if_pos hcond2]
      · cases hlim

theorem claim_C10_witness :
    (localAdmit cfgC5 [("ip", ⟨7, 900, 950⟩)] "ip" 1000).1.limited = true ∧
    (localAdmit cfgC5 [("ip", ⟨7, 900, 950⟩)] "ip" 1000).2
      = localPrepared cfgC5 [("ip", ⟨7, 900, 950⟩)] "ip" 1000 ∧
    ((runSharedRateLimit true false {last := some 100} 5000 cfgC5).2).last
      = some 5000 := by
  have h := claim_C10_local_rejection_frame cfgC5 [("ip", ⟨7, 900, 950⟩)] "ip" 1000
    {last := some 100}
  refine ⟨by decide, h.1 (by decide), ?_⟩
  apply (claim_C10_local_rejection_frame cfgC5 [("ip", ⟨7, 900, 950⟩)] "ip" 5000
    {last := some 100}).2
  intro l hl
  injection hl with hl
  subst hl
  decide

/-! ## Claim C6 -/

theorem getEntry_eq_none {k : String} :
    ∀ {s : RateStore}, k ∉ List.map Prod.fst s → getEntry s k = none := by
  intro s
  induction s with
  | nil =>
    intro _
    rfl
  | cons x rest ih =>
    intro h
    rcases x with ⟨k2, w⟩
    have hk : k2 ≠ k := by
      intro hk
      exact h (by simp [hk])
    show (if k2 = k then some w else getEntry rest k) = none
    rw [if_neg hk]
    exact ih (fun hm => h (List.mem_cons_of_mem _ hm))

theorem length_setEntry_of_none {k : String} (v : RateEntry) :
    ∀ {s : RateStore}, getEntry s k = none → (setEntry s k v).length = s.length + 1 := by
  intro s
  induction s with
  | nil =>
    intro _
    rfl
  | cons x rest ih =>
    intro h
    rcases x with ⟨k2, w⟩
    by_cases hk : k2 = k
    · rw [show getEntry ((k2, w) :: rest) k = some w from by
        show (if k2 = k then some w else getEntry rest k) = some w
        rw [if_pos hk]] at h
      cases h
    · have h2 : getEntry rest k = none := by
        have : getEntry ((k2, w) :: rest) k = getEntry rest k := by
          show (if k2 = k then some w else getEntry rest k) = getEntry rest k
          rw [if_neg hk]
        rw [← this]
        exact h
      show (if k2 = k then (k2, v) :: rest else (k2, w) :: setEntry rest k v).length
        = ((k2, w) :: rest).length + 1
      rw [if_neg hk]
      simp [ih h2]

/-- The three possible stores after a local call: unchanged from preparation
(rejections), or the prepared store with the identity entry bumped
(admission). -/
theorem localAdmit_store_cases (cfg : RateLimitConfig) (store : RateStore)
    (ip : String) (now : Nat) :
    (localAdmit cfg store ip now).2 = localPrepared cfg store ip now ∨
    ∃ active, getEntry (localPrepared cfg store ip now) ip = some active ∧
      (localAdmit cfg store ip now).2
        = setEntry (localPrepared cfg store ip now) ip
            ⟨active.count + 1, active.firstAt, now⟩ := by
  simp only [localAdmit]
  split
  · exact Or.inl rfl
  · rename_i active hact
    split
    · exact Or.inl rfl
    · split
      · exact Or.inl rfl
      · exact Or.inr ⟨active, hact, rfl⟩

/-- C6 (amended).  Local store bounds after every local-fallback call: every
retained entry for an identity other than the caller is within the retention
ceiling of `now`; the store holds at most `RATE_STORE_MAX + 1` entries (the
prune bounds it to the cap before the caller entry may be appended); and the
size-cap eviction removes only entries whose `lastAt` is no larger than that
of every retained entry. -/
theorem claim_C6_local_store_bounds (cfg : RateLimitConfig) (store : RateStore)
    (ip : String) (now : Nat) (hnd : (List.map Prod.fst store).Nodup) :
    (∀ e ∈ (localAdmit cfg store ip now).2, e.1 ≠ ip →
      now - e.2.lastAt ≤ RATE_STORE_TTL_MS) ∧
    (localAdmit cfg store ip now).2.length ≤ RATE_STORE_MAX + 1 ∧
    (∀ e ∈ keptEntries store now, e ∉ pruneRateStore store now →
      ∀ e2 ∈ pruneRateStore store now, e.2.lastAt ≤ e2.2.lastAt) := by
  refine ⟨?_, ?_, ?_⟩
  · intro e he hne
    have hmem : e ∈ localPrepared cfg store ip now := by
      rcases localAdmit_store_cases cfg store ip now with hcase | ⟨active, hact, hcase⟩
      · rw [hcase] at he
        exact he
      · rw [hcase] at he
        rcases mem_setEntry he with h | h
        · exact absurd (congrArg Prod.fst h) hne
        · exact h
    exact (mem_keptEntries (pruneRateStore_subset_kept
      (mem_localPrepared hmem hne))).2
  · have hplen := pruneRateStore_length store now hnd
    have hprep := length_localPrepared cfg store ip now
    rcases localAdmit_store_cases cfg store ip now with hcase | ⟨active, hact, hcase⟩
    · rw [hcase]
      omega
    · rw [hcase, length_setEntry_of_mem _ hact]
      omega
  · intro e he hnot e2 he2
    exact pruneRateStore_evicts_oldest store now hnd he hnot he2

theorem claim_C6_witness :
    (∀ e ∈ (localAdmit cfgC5 [("a", ⟨1, 5, 9⟩)] "b" 20).2, e.1 ≠ "b" →
      20 - e.2.lastAt ≤ RATE_STORE_TTL_MS) ∧
    (localAdmit cfgC5 [("a", ⟨1, 5, 9⟩)] "b" 20).2.length ≤ RATE_STORE_MAX + 1 ∧
    (∀ e ∈ keptEntries [("a", ⟨1, 5, 9⟩)] 20, e ∉ pruneRateStore [("a", ⟨1, 5, 9⟩)] 20 →
      ∀ e2 ∈ pruneRateStore [("a", ⟨1, 5, 9⟩)] 20, e.2.lastAt ≤ e2.2.lastAt) :=
  claim_C6_local_store_bounds cfgC5 [("a", ⟨1, 5, 9⟩)] "b" 20 (by decide)

/-- Configuration for the C6 counterexample. -/
def cfgC6 : RateLimitConfig := ⟨5, 60000, 1000, false⟩

/-- A full local store: 2000 identities (distinct hex keys), all active at
time 7. -/
def bigStore : RateStore :=
  (List.range 2000).map (fun i => (⟨natHex i⟩, ⟨1, 7, 7⟩))

theorem bigStore_nodup : (List.map Prod.fst bigStore).Nodup := by
  unfold bigStore
  rw [List.map_map]
  apply List.Nodup.map
  · intro a b h
    exact natHex_injective (congrArg String.data h)
  · exact List.nodup_range 2000

theorem bigStore_length : bigStore.length = 2000 := by
  unfold bigStore
  rw [List.length_map, List.length_range]

theorem bigStore_kept : keptEntries bigStore 7 = bigStore := by
  apply List.filter_eq_self.mpr
  intro e he
  unfold bigStore at he
  rcases List.mem_map.mp he with ⟨i, _, hei⟩
  have : e.2 = ⟨1, 7, 7⟩ := congrArg Prod.snd hei.symm
  rw [this]
  decide

theorem bigStore_prune : pruneRateStore bigStore 7 = bigStore := by
  simp only [pruneRateStore]
  rw [bigStore_kept]
  rw [if_pos (by rw [bigStore_length]; decide)]

theorem bigStore_no_zz : getEntry bigStore "zz" = none := by
  apply getEntry_eq_none
  intro hmem
  unfold bigStore at hmem
  rw [List.map_map] at hmem
  rcases List.mem_map.mp hmem with ⟨i, _, hei⟩
  have hdata : natHex i = ['z', 'z'] := congrArg String.data hei
  have hz : 'z' ∈ natHex i := by
    rw [hdata]
    exact List.mem_cons_self _ _
  exact absurd (natHex_mem_hexDigits hz) (by decide)

/-- The admitted branch of the local path, projected to the stored state. -/
theorem localAdmit_admitted_snd (cfg : RateLimitConfig) (store : RateStore) (ip : String)
    (now : Nat) (active : RateEntry)
    (hact : getEntry (localPrepared cfg store ip now) ip = some active)
    (hmin : (active.lastAt != 0 && decide (now - active.lastAt < cfg.minIntervalMs)) = false)
    (hmax : ¬ cfg.max ≤ active.count) :
    (localAdmit cfg store ip now).2
      = setEntry (localPrepared cfg store ip now) ip
          ⟨active.count + 1, active.firstAt, now⟩ := by
  simp only [localAdmit]
  rw [hact]
  change ((if (active.lastAt != 0 && decide (now - active.lastAt < cfg.minIntervalMs)) = true
      then _ else _ : RateResult × RateStore)).2 = _
  rw [hmin]
  change ((if cfg.max ≤ active.count then _ else _ : RateResult × RateStore)).2 = _
  rw [if_neg hmax]

/-- C6 counterexample: with the local store exactly at the 2000-entry cap and
none of it stale, a call for a new identity leaves 2001 entries — the map
exceeds the configured maximum after the call, because the caller entry is
inserted after pruning enforces the cap. -/
theorem claim_C6_counterexample :
    (List.map Prod.fst bigStore).Nodup ∧
    RATE_STORE_MAX < ((localAdmit cfgC6 bigStore "zz" 7).2).length := by
  refine ⟨bigStore_nodup, ?_⟩
  have hget : getEntry (localPrepared cfgC6 bigStore "zz" 7) "zz" = some ⟨0, 7, 0⟩ := by
    rw [show localPrepared cfgC6 bigStore "zz" 7 = setEntry bigStore "zz" ⟨0, 7, 0⟩ from by
      simp only [localPrepared]
      rw [bigStore_prune, bigStore_no_zz]]
    exact getEntry_setEntry_self _ _ _
  rw [localAdmit_admitted_snd cfgC6 bigStore "zz" 7 ⟨0, 7, 0⟩ hget (by decide) (by decide)]
  rw [length_setEntry_of_mem _ hget]
  rw [show localPrepared cfgC6 bigStore "zz" 7 = setEntry bigStore "zz" ⟨0, 7, 0⟩ from by
    simp only [localPrepared]
    rw [bigStore_prune, bigStore_no_zz]]
  rw [length_setEntry_of_none _ bigStore_no_zz, bigStore_length]
  decide

/-! ## Cipher evaluation lemmas -/

theorem hexOfString_sep_free {c : Char} (hc : c ∉ hexDigits) (s : String) :
    c ∉ (hexOfString s).data := fun h => hc (hexOfChars_mem_hexDigits h)

theorem hexOfChars_length (l : List Char) : (hexOfChars l).length = 6 * l.length := by
  induction l with
  | nil => rfl
  | cons x rest ih =>
    show (hexChar6 x.toNat ++ hexOfChars rest).length = 6 * (rest.length + 1)
    rw [List.length_append, ih]
    show 6 + 6 * rest.length = 6 * (rest.length + 1)
    ring

theorem hexOfString_length (s : String) : (hexOfString s).length = 6 * s.length := by
  show (hexOfChars s.data).length = _
  rw [hexOfChars_length]
  rfl

/-- Exactness of `stringOfHex`: anything it accepts is the encoding of its
result. -/
theorem stringOfHex_exact {s t : String} (h : stringOfHex s = some t) :
    s = hexOfString t := by
  unfold stringOfHex at h
  rcases Option.map_eq_some'.mp h with ⟨l, hl, ht⟩
  have := hexOfChars_of_charsOfHex hl
  subst ht
  cases s
  exact congrArg String.mk this.symm

theorem getEncryptionKey_some {km : String} (env : Option String) (h : strTrim km ≠ "") :
    getEncryptionKey (some km) env = some (hashToken (strTrim km)) := by
  unfold getEncryptionKey
  simp [h]

theorem getEncryptionKey_none {km : String} (env : Option String) (h : strTrim km = "") :
    getEncryptionKey (some km) env = none := by
  unfold getEncryptionKey
  simp [h]

theorem decryptSecret_nokey {km env : Option String} (s : String)
    (h : getEncryptionKey km env = none) : decryptSecret s km env = none := by
  unfold decryptSecret
  rw [h]

theorem encryptSecret_some (v km : String) (env : Option String) (iv : String)
    (h : strTrim km ≠ "") :
    encryptSecret v (some km) env iv
      = some ("enc:v1:" ++ hexOfString iv ++ ":"
          ++ hexOfString (gcmTag (hashToken (strTrim km)) iv
              (gcmCipher (hashToken (strTrim km)) iv v)) ++ ":"
          ++ hexOfString (gcmCipher (hashToken (strTrim km)) iv v)) := by
  unfold encryptSecret
  rw [getEncryptionKey_some env h]

/-- Splitting a well-formed `enc:v1:iv:tag:ct` string on colons. -/
theorem splitStr_cipher (a b c : String) (ha : ':' ∉ a.data) (hb : ':' ∉ b.data)
    (hc : ':' ∉ c.data) :
    splitStr ':' ("enc:v1:" ++ a ++ ":" ++ b ++ ":" ++ c) = ["enc", "v1", a, b, c] := by
  unfold splitStr
  have hdata : ("enc:v1:" ++ a ++ ":" ++ b ++ ":" ++ c).data
      = ['e', 'n', 'c'] ++ ':' :: (['v', '1']
          ++ ':' :: (a.data ++ ':' :: (b.data ++ ':' :: c.data))) := by
    simp [String.data_append]
  rw [hdata, splitOnChar_append_sep ':' _ _ (by decide),
    splitOnChar_append_sep ':' _ _ (by decide),
    splitOnChar_append_sep ':' _ _ ha, splitOnChar_append_sep ':' _ _ hb,
    splitOnChar_sep_free ':' _ hc]
  rfl

/-- Evaluation of `decryptSecret` on a well-formed five-segment value with an
arbitrary tag segment. -/
theorem decryptSecret_eval_tagseg (s km : String) (env : Option String)
    (ivv ct : String) (tagSeg : String) (hkm : strTrim km ≠ "")
    (hsp : splitStr ':' s = ["enc", "v1", hexOfString ivv, tagSeg, hexOfString ct]) :
    decryptSecret s (some km) env
      = (match stringOfHex tagSeg with
        | none => none
        | some tag2 =>
          if tag2 = gcmTag (hashToken (strTrim km)) ivv ct
            then gcmDecipher (hashToken (strTrim km)) ivv ct else none) := by
  unfold decryptSecret
  rw [getEncryptionKey_some env hkm]
  show (match splitStr ':' s with
    | [e, v, ivSeg, tagSeg, ctSeg] =>
      if e ≠ "enc" ∨ v ≠ "v1" then none
      else
        match stringOfHex ivSeg, stringOfHex tagSeg, stringOfHex ctSeg with
        | some iv, some authTag, some encrypted =>
          if authTag = gcmTag (hashToken (strTrim km)) iv encrypted
            then gcmDecipher (hashToken (strTrim km)) iv encrypted
          else none
        | _, _, _ => none
    | _ => none) = _
  rw [hsp]
  show (if ("enc" : String) ≠ "enc" ∨ ("v1" : String) ≠ "v1" then none
    else
      match stringOfHex (hexOfString ivv), stringOfHex tagSeg,
          stringOfHex (hexOfString ct) with
      | some iv, some authTag, some encrypted =>
        if authTag = gcmTag (hashToken (strTrim km)) iv encrypted
          then gcmDecipher (hashToken (strTrim km)) iv encrypted
        else none
      | _, _, _ => none) = _
  rw [if_neg (by simp), stringOfHex_hexOfString, stringOfHex_hexOfString]
  cases htag : stringOfHex tagSeg with
  | none => rfl
  | some tag2 => rfl

theorem decryptSecret_eval (s km : String) (env : Option String)
    (ivv tag ct : String) (hkm : strTrim km ≠ "")
    (hsp : splitStr ':' s
      = ["enc", "v1", hexOfString ivv, hexOfString tag, hexOfString ct]) :
    decryptSecret s (some km) env
      = (if tag = gcmTag (hashToken (strTrim km)) ivv ct
          then gcmDecipher (hashToken (strTrim km)) ivv ct else none) := by
  rw [decryptSecret_eval_tagseg s km env ivv ct (hexOfString tag) hkm hsp,
    stringOfHex_hexOfString]

/-! ## Claim C7 -/

/-- The encrypted value of the C7 counterexample: `"hi"` under key material
`"k"` with nonce `"iv"`. -/
def cipherC7 : String :=
  "enc:v1:" ++ hexOfString "iv" ++ ":"
    ++ hexOfString (gcmTag (hashToken (strTrim "k")) "iv"
        (gcmCipher (hashToken (strTrim "k")) "iv" "hi"))
    ++ ":" ++ hexOfString (gcmCipher (hashToken (strTrim "k")) "iv" "hi")

/-- C7 counterexample: decryption under the different key material `"k "`
(a trailing space) succeeds on a ciphertext produced under `"k"`, because
`getEncryptionKey` trims the key material before hashing — so `decrypt` with
a wrong key does not always fail. -/
theorem claim_C7_counterexample :
    ("k " : String) ≠ "k" ∧
    encryptSecret "hi" (some "k") none "iv" = some cipherC7 ∧
    decryptSecret cipherC7 (some "k ") none = some "hi" := by
  refine ⟨by decide, encryptSecret_some "hi" "k" none "iv" (by decide), ?_⟩
  have htrim : strTrim "k " = strTrim "k" := by decide
  have hsp : splitStr ':' cipherC7
      = ["enc", "v1", hexOfString "iv",
          hexOfString (gcmTag (hashToken (strTrim "k")) "iv"
            (gcmCipher (hashToken (strTrim "k")) "iv" "hi")),
          hexOfString (gcmCipher (hashToken (strTrim "k")) "iv" "hi")] :=
    splitStr_cipher _ _ _ (hexOfString_sep_free (by decide) _)
      (hexOfString_sep_free (by decide) _) (hexOfString_sep_free (by decide) _)
  rw [decryptSecret_eval cipherC7 "k " none "iv"
    (gcmTag (hashToken (strTrim "k")) "iv" (gcmCipher (hashToken (strTrim "k")) "iv" "hi"))
    (gcmCipher (hashToken (strTrim "k")) "iv" "hi") (by decide) hsp]
  rw [htrim, if_pos rfl]
  exact gcmDecipher_gcmCipher _ _ _

/-- C7 (amended).  Secret cipher round trip and key binding: for every
non-empty plaintext and key material with non-empty trim, decryption of the
produced ciphertext under the same key material returns the plaintext; for
key material whose trim differs (the amendment: the source hashes the
trimmed material, so two key materials equal after trimming derive the same
key), decryption fails; and any five-segment value sharing the nonce and
ciphertext segments but with a different tag segment fails to decrypt. -/
theorem claim_C7_cipher_roundtrip (v km k2 : String) (env env2 : Option String)
    (iv : String) (hkm : strTrim km ≠ "") (_hv : v ≠ "") :
    (∀ c, encryptSecret v (some km) env iv = some c →
      decryptSecret c (some km) env2 = some v) ∧
    (∀ c, encryptSecret v (some km) env iv = some c → strTrim k2 ≠ strTrim km →
      decryptSecret c (some k2) env2 = none) ∧
    (∀ c ivSeg tagSeg ctSeg s2 tagSeg2,
      encryptSecret v (some km) env iv = some c →
      splitStr ':' c = ["enc", "v1", ivSeg, tagSeg, ctSeg] →
      splitStr ':' s2 = ["enc", "v1", ivSeg, tagSeg2, ctSeg] →
      tagSeg2 ≠ tagSeg →
      decryptSecret s2 (some km) env2 = none) := by
  have hspc : ∀ c, encryptSecret v (some km) env iv = some c →
      splitStr ':' c = ["enc", "v1", hexOfString iv,
        hexOfString (gcmTag (hashToken (strTrim km)) iv
          (gcmCipher (hashToken (strTrim km)) iv v)),
        hexOfString (gcmCipher (hashToken (strTrim km)) iv v)] := by
    intro c hc
    rw [encryptSecret_some v km env iv hkm] at hc
    injection hc with hc
    subst hc
    exact splitStr_cipher _ _ _ (hexOfString_sep_free (by decide) _)
      (hexOfString_sep_free (by decide) _) (hexOfString_sep_free (by decide) _)
  refine ⟨?_, ?_, ?_⟩
  · intro c hc
    rw [decryptSecret_eval c km env2 iv _ _ hkm (hspc c hc), if_pos rfl]
    exact gcmDecipher_gcmCipher _ _ _
  · intro c hc hne
    by_cases h2 : strTrim k2 = ""
    · exact decryptSecret_nokey c (getEncryptionKey_none env2 h2)
    · rw [decryptSecret_eval c k2 env2 iv _ _ h2 (hspc c hc)]
      rw [if_neg ?_]
      intro heq
      rcases gcmTag_inj heq with ⟨hkey, _, _⟩
      exact hne (hashToken_injective hkey.symm)
  · intro c ivSeg tagSeg ctSeg s2 tagSeg2 hc hcsp hs2 hne
    rw [hspc c hc] at hcsp
    injection hcsp with _ hcsp
    injection hcsp with _ hcsp
    injection hcsp with hiv hcsp
    injection hcsp with htg hcsp
    injection hcsp with hct _
    subst hiv
    subst hct
    subst htg
    rw [decryptSecret_eval_tagseg s2 km env2 iv
      (gcmCipher (hashToken (strTrim km)) iv v) tagSeg2 hkm hs2]
    cases hparse : stringOfHex tagSeg2 with
    | none => rfl
    | some tag2 =>
      show (if tag2 = gcmTag (hashToken (strTrim km)) iv
            (gcmCipher (hashToken (strTrim km)) iv v)
          then gcmDecipher (hashToken (strTrim km)) iv
            (gcmCipher (hashToken (strTrim km)) iv v)
          else none) = none
      rw [if_neg ?_]
      intro heq
      apply hne
      rw [stringOfHex_exact hparse, heq]

theorem claim_C7_witness :
    decryptSecret cipherC7 (some "k") none = some "hi" ∧
    decryptSecret cipherC7 (some "x") none = none ∧
    decryptSecret ("enc:v1:" ++ hexOfString "iv" ++ ":" ++ "00" ++ ":"
        ++ hexOfString (gcmCipher (hashToken (strTrim "k")) "iv" "hi")) (some "k") none
      = none := by
  have h := claim_C7_cipher_roundtrip "hi" "k" "x" none none "iv" (by decide) (by decide)
  have henc : encryptSecret "hi" (some "k") none "iv" = some cipherC7 :=
    encryptSecret_some "hi" "k" none "iv" (by decide)
  have hspc : splitStr ':' cipherC7
      = ["enc", "v1", hexOfString "iv",
          hexOfString (gcmTag (hashToken (strTrim "k")) "iv"
            (gcmCipher (hashToken (strTrim "k")) "iv" "hi")),
          hexOfString (gcmCipher (hashToken (strTrim "k")) "iv" "hi")] :=
    splitStr_cipher _ _ _ (hexOfString_sep_free (by decide) _)
      (hexOfString_sep_free (by decide) _) (hexOfString_sep_free (by decide) _)
  have hsp2 : splitStr ':' ("enc:v1:" ++ hexOfString "iv" ++ ":" ++ "00" ++ ":"
        ++ hexOfString (gcmCipher (hashToken (strTrim "k")) "iv" "hi"))
      = ["enc", "v1", hexOfString "iv", "00",
          hexOfString (gcmCipher (hashToken (strTrim "k")) "iv" "hi")] :=
    splitStr_cipher _ _ _ (hexOfString_sep_free (by decide) _) (by decide)
      (hexOfString_sep_free (by decide) _)
  refine ⟨h.1 cipherC7 henc, h.2.1 cipherC7 henc (by decide), ?_⟩
  apply h.2.2 cipherC7 (hexOfString "iv")
    (hexOfString (gcmTag (hashToken (strTrim "k")) "iv"
      (gcmCipher (hashToken (strTrim "k")) "iv" "hi")))
    (hexOfString (gcmCipher (hashToken (strTrim "k")) "iv" "hi")) _ "00" henc hspc hsp2
  intro heq
  have hlen := congrArg String.length heq
  have h00 : ("00" : String).length = 2 := rfl
  rw [h00, hexOfString_length] at hlen
  omega

/-! ## Claim C8 -/

/-- Entrywise characterization of the drain loop. -/
theorem drainLoop_spec (submitFn : SubmissionPayload → SubmitResult) (now : Nat)
    (opts : QueueOptions) : ∀ entries : List QueueEntry,
    drainLoop submitFn now opts entries
      = ((entries.filter (fun e => decide (e.nextAttemptAt ≤ now))).length,
          entries.filterMap (fun e =>
            if now < e.nextAttemptAt then some e
            else match submitFn e.payload with
              | .ok => none
              | .err msg => some ⟨e.payload, msg, e.queuedAt, e.attempts + 1,
                  now + getBackoffDelayMs (e.attempts + 1) opts⟩)) := by
  intro entries
  induction entries with
  | nil => rfl
  | cons e rest ih =>
    simp only [drainLoop]
    rw [ih]
    by_cases h : now < e.nextAttemptAt
    · have hf : decide (e.nextAttemptAt ≤ now) = false :=
        decide_eq_false (Nat.not_le.mpr h)
      simp [List.filter_cons, List.filterMap_cons, hf, if_pos h]
    · have ht : decide (e.nextAttemptAt ≤ now) = true :=
        decide_eq_true (Nat.not_lt.mp h)
      cases hs : submitFn e.payload with
      | ok =>
        simp [List.filter_cons, List.filterMap_cons, ht, if_neg h, hs]
      | err msg =>
        simp [List.filter_cons, List.filterMap_cons, ht, if_neg h, hs]

/-- C8.  Drain state machine: for every queue, submit function, time and
options, the drain processes exactly the entries whose `nextAttemptAt` is
due (`≤ now`); a not-yet-due entry is retained unchanged and not counted; a
due entry is submitted, removed on success, and on failure retained with
`attempts` incremented and
`nextAttemptAt = now + min(baseDelay · 2^(attempts-1), maxDelay)` computed
from the incremented attempts. -/
theorem claim_C8_drain_state_machine (entries : List QueueEntry)
    (submitFn : SubmissionPayload → SubmitResult) (now : Nat) (opts : QueueOptions) :
    (drainSubmissionQueue entries submitFn now opts).1
      = (entries.filter (fun e => decide (e.nextAttemptAt ≤ now))).length ∧
    (drainSubmissionQueue entries submitFn now opts).2.1
      = entries.filterMap (fun e =>
          if now < e.nextAttemptAt then some e
          else match submitFn e.payload with
            | .ok => none
            | .err msg => some ⟨e.payload, msg, e.queuedAt, e.attempts + 1,
                now + min ((opts.baseDelayMs.getD DEFAULT_BASE_DELAY_MS)
                    * 2 ^ (e.attempts + 1 - 1))
                  (opts.maxDelayMs.getD DEFAULT_MAX_DELAY_MS)⟩) := by
  unfold drainSubmissionQueue
  cases entries with
  | nil => exact ⟨rfl, rfl⟩
  | cons e rest =>
    rw [if_neg (by simp)]
    rw [drainLoop_spec]
    exact ⟨rfl, rfl⟩

/-! ## Claim C9 -/

/-- C9 counterexample: with `maxSize = 0` the capacity cap is not applied at
all — `slice(-0)` is `slice(0)`, the whole array — so the queue retains one
entry where the claim requires zero. -/
theorem claim_C9_counterexample :
    (enqueueFailedSubmission [] "p" "err" 0 ⟨some 0, none, none⟩).length = 1 := by
  decide

/-- C9 (amended).  Queue capacity for `maxSize ≥ 1`: enqueueing appends the
new entry with `attempts = 1` and `nextAttemptAt = now + min(baseDelay·2^0,
maxDelay)` and retains only the `maxSize` most recent entries, dropping the
oldest first.  (`maxSize = 0` is excluded: JS `slice(-0)` returns the whole
array, so the cap is not enforced there.) -/
theorem claim_C9_enqueue_caps (entries : List QueueEntry) (payload : SubmissionPayload)
    (msg : String) (now : Nat) (opts : QueueOptions)
    (hms : 1 ≤ opts.maxSize.getD DEFAULT_MAX_SIZE) :
    enqueueFailedSubmission entries payload msg now opts
      = (entries ++ [(⟨payload, msg, now, 1,
          now + min ((opts.baseDelayMs.getD DEFAULT_BASE_DELAY_MS) * 2 ^ (1 - 1))
            (opts.maxDelayMs.getD DEFAULT_MAX_DELAY_MS)⟩ : QueueEntry)]).drop
          (entries.length + 1 - opts.maxSize.getD DEFAULT_MAX_SIZE) := by
  unfold enqueueFailedSubmission
  have hlen : (entries ++ [(⟨payload, msg, now, 1,
      now + getBackoffDelayMs 1 opts⟩ : QueueEntry)]).length = entries.length + 1 := by
    simp
  by_cases h : (entries ++ [(⟨payload, msg, now, 1,
      now + getBackoffDelayMs 1 opts⟩ : QueueEntry)]).length
      > opts.maxSize.getD DEFAULT_MAX_SIZE
  · rw [if_pos h]
    unfold sliceLast
    rw [if_neg (by omega), hlen]
    rfl
  · rw [if_neg h]
    rw [show entries.length + 1 - opts.maxSize.getD DEFAULT_MAX_SIZE = 0 from by omega,
      List.drop_zero]
    rfl

theorem claim_C9_witness :
    (1 : Nat) ≤ 2 ∧
    enqueueFailedSubmission
        (enqueueFailedSubmission
          (enqueueFailedSubmission [] "A" "fail" 0 ⟨some 2, none, none⟩)
          "B" "fail" 1 ⟨some 2, none, none⟩)
        "C" "fail" 2 ⟨some 2, none, none⟩
      = [⟨"B", "fail", 1, 1, 20001⟩, ⟨"C", "fail", 2, 1, 20002⟩] :=
  ⟨by decide,
    (claim_C9_enqueue_caps _ "C" "fail" 2 ⟨some 2, none, none⟩ (by decide)).trans
      (by decide)⟩

end ValLand
